import Mathlib

/-!
Verification development for the YAML dumper core (`_dumper_state.ts`).

JavaScript strings are sequences of UTF-16 code units; we model them as
`List Nat` (`JStr`).  For the ASCII strings appearing in claims the code
units coincide with Unicode code points, so the helper `js` converts a
Lean string literal to its `JStr` form.
-/

/-- A JavaScript string: its sequence of UTF-16 code units. -/
abbrev JStr := List Nat

/-- Encode an ASCII Lean string literal as a `JStr`. -/
def js (s : String) : JStr := s.toList.map Char.toNat

/-- Character codes from the character module (`_chars.ts`). -/
def LINE_FEED : Nat := 0x0a
def SPACE : Nat := 0x20
def TAB : Nat := 0x09

/-- Modelled from the spec: the character module's whitespace predicate
(YAML `s-white`, i.e. space and tab), used by `isPlainSafeFirst` and for
the trailing-whitespace check in `chooseScalarStyle`. -/
def isWhiteSpace (c : Nat) : Bool := c == TAB || c == SPACE

/-- `isPrintable` from the Character Classifier. -/
def isPrintable (c : Nat) : Bool :=
  (0x20 ≤ c && c ≤ 0x7e) ||
  (0xa1 ≤ c && c ≤ 0xd7ff && c ≠ 0x2028 && c ≠ 0x2029) ||
  (0xe000 ≤ c && c ≤ 0xfffd && c ≠ 0xfeff) ||
  (0x10000 ≤ c && c ≤ 0x10ffff)

/-- `isPlainSafe` from the Character Classifier. -/
def isPlainSafe (c : Nat) : Bool :=
  isPrintable c && c ≠ 0xfeff &&
  c ≠ 0x2c && c ≠ 0x5b && c ≠ 0x5d && c ≠ 0x7b && c ≠ 0x7d &&
  c ≠ 0x3a && c ≠ 0x23

/-- `isPlainSafeFirst` from the Character Classifier. -/
def isPlainSafeFirst (c : Nat) : Bool :=
  isPrintable c && c ≠ 0xfeff && !isWhiteSpace c &&
  c ≠ 0x2d && c ≠ 0x3f && c ≠ 0x3a && c ≠ 0x2c &&
  c ≠ 0x5b && c ≠ 0x5d && c ≠ 0x7b && c ≠ 0x7d &&
  c ≠ 0x23 && c ≠ 0x26 && c ≠ 0x2a && c ≠ 0x21 &&
  c ≠ 0x7c && c ≠ 0x3e && c ≠ 0x27 && c ≠ 0x22 &&
  c ≠ 0x25 && c ≠ 0x40 && c ≠ 0x60

/-- Errors thrown by the dumper, plus fuel exhaustion of the model's
recursion (the source recurses without an explicit bound). -/
inductive DumpErr where
  | outOfFuel
  | typeError (msg : String)
deriving DecidableEq, Repr

/-- Decimal digits of a JS number (`String(n)` / template interpolation). -/
def natToDec (n : Nat) : JStr := (Nat.toDigits 10 n).map Char.toNat

/-- Uppercase hexadecimal digits (`charCode.toString(16).toUpperCase()`). -/
def natToHexUpper (n : Nat) : JStr := (Nat.toDigits 16 n).map (fun c => c.toUpper.toNat)

/-- `padStart(k, "0")`. -/
def padZeros (k : Nat) (s : JStr) : JStr := List.replicate (k - s.length) 0x30 ++ s

/-- `charCodeToHexString`: encode a code point as a `\xHH`, `\uHHHH` or
`\UHHHHHHHH` escape; throws beyond `0xFFFFFFFF`. -/
def charCodeToHexString (charCode : Nat) : Except DumpErr JStr :=
  let hexString := natToHexUpper charCode
  if charCode ≤ 0xff then .ok (js "\\x" ++ padZeros 2 hexString)
  else if charCode ≤ 0xffff then .ok (js "\\u" ++ padZeros 4 hexString)
  else if charCode ≤ 0xffffffff then .ok (js "\\U" ++ padZeros 8 hexString)
  else .error (.typeError "Code point within a string may not be greater than 0xFFFFFFFF")

/-- `ESCAPE_SEQUENCES`: the named two-character escapes. -/
def ESCAPE_SEQUENCES : List (Nat × JStr) :=
  [(0x00, js "\\0"), (0x07, js "\\a"), (0x08, js "\\b"), (0x09, js "\\t"),
   (0x0a, js "\\n"), (0x0b, js "\\v"), (0x0c, js "\\f"), (0x0d, js "\\r"),
   (0x1b, js "\\e"), (0x22, js "\\\""), (0x5c, js "\\\\"), (0x85, js "\\N"),
   (0xa0, js "\\_"), (0x2028, js "\\L"), (0x2029, js "\\P")]

/-- `DEPRECATED_BOOLEANS_SYNTAX`. -/
def DEPRECATED_BOOLEANS_SYNTAX : List JStr :=
  [js "y", js "Y", js "yes", js "Yes", js "YES", js "on", js "On", js "ON",
   js "n", js "N", js "no", js "No", js "NO", js "off", js "Off", js "OFF"]

/-- One step of `escapeString`'s loop for a non-surrogate-pair unit:
the named escape if any, else the character verbatim when printable,
else a hex escape. -/
def escapeUnit (c : Nat) : Except DumpErr JStr :=
  match ESCAPE_SEQUENCES.lookup c with
  | some seq => .ok seq
  | none => if isPrintable c then .ok [c] else charCodeToHexString c

/-- The surrogate-pair recombination
`(char - 0xd800) * 0x400 + nextChar - 0xdc00 + 0x10000`. -/
def combineSurrogates (char nextChar : Nat) : Nat :=
  (char - 0xd800) * 0x400 + nextChar - 0xdc00 + 0x10000

/-- A recombined surrogate pair is a code point of at most `0x10FFFF` —
in particular far below the escaper's `0xFFFFFFFF` internal error bound. -/
theorem combineSurrogates_le (char nextChar : Nat)
    (h1 : 0xd800 ≤ char) (h2 : char ≤ 0xdbff) (h3 : 0xdc00 ≤ nextChar)
    (h4 : nextChar ≤ 0xdfff) : combineSurrogates char nextChar ≤ 0x10ffff := by
  rw [combineSurrogates]
  omega

/-- One step of `escapeString`'s loop.  The loop's extra `i++` after
consuming a surrogate pair is threaded as the `skip` flag: when set, the
current unit (the already-consumed low surrogate) is passed over.
(`charCodeAt` out of range is `NaN`, which fails the low surrogate range
test; `getD 0` fails it the same way.)  `ih` continues the loop over
`rest`. -/
def escapeStringStep (c : Nat) (rest : JStr) (ih : Bool → Except DumpErr JStr)
    (skip : Bool) : Except DumpErr JStr :=
  if skip then ih false
  else if 0xd800 ≤ c ∧ c ≤ 0xdbff ∧ 0xdc00 ≤ rest.getD 0 0 ∧ rest.getD 0 0 ≤ 0xdfff then
    match charCodeToHexString (combineSurrogates c (rest.getD 0 0)) with
    | .error e => .error e
    | .ok piece =>
      match ih true with
      | .error e => .error e
      | .ok r => .ok (piece ++ r)
  else
    match escapeUnit c with
    | .error e => .error e
    | .ok piece =>
      match ih false with
      | .error e => .error e
      | .ok r => .ok (piece ++ r)

/-- The loop of `escapeString` over the code units (primitive recursion on
the unit list). -/
def escapeStringAux (s : JStr) : Bool → Except DumpErr JStr :=
  List.rec (fun _ => .ok []) (fun c rest ih => escapeStringStep c rest ih) s

/-- `escapeString`: escapes a double-quoted scalar's body.  Surrogate
pairs are recombined into a single code point before hex-escaping. -/
def escapeString (s : JStr) : Except DumpErr JStr := escapeStringAux s false

theorem escapeStringAux_nil : escapeStringAux [] = fun _ => .ok [] := rfl

theorem escapeStringAux_cons (c : Nat) (rest : JStr) :
    escapeStringAux (c :: rest) = escapeStringStep c rest (escapeStringAux rest) := rfl

example : escapeString (js "a") = .ok (js "a") := by rfl
example : escapeString [0x07] = .ok (js "\\a") := by rfl
example : escapeString [0xd83d, 0xde00] = .ok (js "\\U0001F600") := by rfl

/-! ### Line folder and block-scalar helpers -/

/-- Split a string at line feeds (JS `split("\n")`). -/
def splitLines : JStr → List JStr
  | [] => [[]]
  | c :: rest =>
    if c = LINE_FEED then [] :: splitLines rest
    else
      match splitLines rest with
      | l :: ls => (c :: l) :: ls
      | [] => [[c]]

/-- `indentString`: indent every non-empty line by `spaces` spaces. -/
def indentString (s : JStr) (spaces : Nat) : JStr :=
  List.intercalate [LINE_FEED]
    ((splitLines s).map (fun line =>
      if line.length ≠ 0 then List.replicate spaces SPACE ++ line else line))

/-- `generateNextLine`: a line feed followed by `indent * level` spaces. -/
def generateNextLine (indent : Int) (level : Nat) : JStr :=
  LINE_FEED :: List.replicate (indent * (level : Int)).toNat SPACE

/-- `needIndentIndicator`: the string starts with zero or more line feeds
followed by a space (regexp `^\n* `). -/
def needIndentIndicator (s : JStr) : Bool :=
  (s.dropWhile (· == LINE_FEED)).getD 0 0 == SPACE

/-- `trimTrailingNewline`: drop one trailing line feed if present. -/
def trimTrailingNewline (s : JStr) : JStr :=
  if s.getLast? = some LINE_FEED then s.dropLast else s

/-- `blockHeader`: indentation indicator (when needed) plus chomping
indicator plus the newline ending the block-scalar header line. -/
def blockHeader (s : JStr) (indentPerLevel : Int) : JStr :=
  let indentIndicator := if needIndentIndicator s then natToDec indentPerLevel.toNat else []
  let clip := s.getLast? = some LINE_FEED
  let keep := clip ∧ ((s.length ≥ 2 ∧ s.getD (s.length - 2) 0 = LINE_FEED) ∨ s = [LINE_FEED])
  let chomp := if keep then js "+" else if clip then [] else js "-"
  indentIndicator ++ chomp ++ [LINE_FEED]

/-- `line.slice(a, b)` on code-unit lists. -/
def jstrSlice (l : JStr) (a b : Nat) : JStr := (l.drop a).take (b - a)

/-- The match positions of the regexp `/ [^ ]/g`: indices `j` with a space
at `j` and a non-space at `j+1` (the matches cannot overlap, so `matchAll`
finds exactly these). -/
def breakIndices (line : JStr) : List Nat :=
  (List.range line.length).filter
    (fun j => line.getD j 0 == SPACE && j + 1 < line.length && line.getD (j + 1) 0 != SPACE)

/-- Loop state of `foldLine`. -/
structure FoldAcc where
  start : Nat
  curr : Nat
  lines : List JStr

/-- The `for (const match of line.matchAll(breakRegExp))` loop of `foldLine`. -/
def foldLineLoop (line : JStr) (width : Int) : List Nat → FoldAcc → FoldAcc
  | [], acc => acc
  | next :: rest, acc =>
    if (next : Int) - (acc.start : Int) > width then
      let e := if acc.curr > acc.start then acc.curr else next
      foldLineLoop line width rest ⟨e + 1, next, acc.lines ++ [jstrSlice line acc.start e]⟩
    else
      foldLineLoop line width rest { acc with curr := next }

/-- `foldLine`: greedy line breaking of a single content line. -/
def foldLine (line : JStr) (width : Int) : JStr :=
  if line = [] ∨ line.getD 0 0 = SPACE then line
  else
    let acc := foldLineLoop line width (breakIndices line) ⟨0, 0, []⟩
    let lines :=
      if (line.length : Int) - (acc.start : Int) > width ∧ acc.curr > acc.start then
        acc.lines ++ [jstrSlice line acc.start acc.curr, line.drop (acc.curr + 1)]
      else acc.lines ++ [line.drop acc.start]
    List.intercalate [LINE_FEED] lines

/-- Index of the first occurrence of `t`, or the length when absent
(JS `indexOf` returning `-1` is immediately replaced by the length). -/
def idxOfOrLen : JStr → Nat → Nat
  | [], _ => 0
  | c :: rest, t => if c = t then 0 else idxOfOrLen rest t + 1

/-- The `while ((match = lineRe.exec(string)))` loop of `foldString`: the
remainder is repeatedly parsed as `(\n+)([^\n]*)`.  The fuel argument only
bounds the recursion; `foldString` supplies enough for the whole string. -/
def foldChunks (width : Int) : Nat → Bool → JStr → JStr
  | 0, _, _ => []
  | fuel + 1, prevMoreIndented, rest =>
    if rest = [] then []
    else
      let pre := rest.takeWhile (· == LINE_FEED)
      let afterPre := rest.dropWhile (· == LINE_FEED)
      let line := afterPre.takeWhile (· != LINE_FEED)
      let rest' := afterPre.drop line.length
      let moreIndented := line.getD 0 0 == SPACE
      pre ++ (if !prevMoreIndented && !moreIndented && line ≠ [] then [LINE_FEED] else []) ++
        foldLine line width ++ foldChunks width fuel moreIndented rest'

/-- `foldString`: fold the first line, then each `(\n+)(content)` chunk,
re-inserting one extra blank line between two folded chunks when neither
neighbouring line is more-indented and the line is non-empty. -/
def foldString (s : JStr) (width : Int) : JStr :=
  let nextLF := idxOfOrLen s LINE_FEED
  let first := foldLine (s.take nextLF) width
  let prevMoreIndented := s.getD 0 0 = LINE_FEED ∨ s.getD 0 0 = SPACE
  first ++ foldChunks width (s.drop nextLF).length prevMoreIndented (s.drop nextLF)

/-! ### Scalar style choice -/

/-- The five scalar styles (`STYLE_PLAIN` … `STYLE_DOUBLE`). -/
inductive ScalarStyle where
  | plain | single | literal | folded | double
deriving DecidableEq, Repr

/-- The character scan of `chooseScalarStyle` in single-line-only mode:
`none` models the early `return STYLE_DOUBLE` on a non-printable
character, otherwise the final `plain` flag is returned. -/
def scanSingleLine : JStr → Bool → Option Bool
  | [], plain => some plain
  | c :: rest, plain =>
    if !isPrintable c then none else scanSingleLine rest (plain && isPlainSafe c)

/-- Loop state of `chooseScalarStyle`'s block-mode scan. -/
structure BlockScan where
  hasLineBreak : Bool
  hasFoldableLine : Bool
  previousLineBreak : Int
  plain : Bool

/-- The character scan of `chooseScalarStyle` when block styles are
permitted; `none` models the early `return STYLE_DOUBLE`.  (`full` is the
whole string, consulted for `string[previousLineBreak + 1]`; an
out-of-range access is `undefined`, which is not a space — `getD _ 0`
likewise yields a non-space.) -/
def scanBlock (full : JStr) (lineWidth : Int) (shouldTrackWidth : Bool) :
    List Nat → Int → BlockScan → Option BlockScan
  | [], _, acc => some acc
  | c :: rest, i, acc =>
    if c = LINE_FEED then
      let acc :=
        if shouldTrackWidth then
          { acc with
            hasLineBreak := true
            hasFoldableLine := acc.hasFoldableLine ||
              (decide (i - acc.previousLineBreak - 1 > lineWidth) &&
                full.getD (acc.previousLineBreak + 1).toNat 0 != SPACE)
            previousLineBreak := i }
        else { acc with hasLineBreak := true }
      scanBlock full lineWidth shouldTrackWidth rest (i + 1) { acc with plain := acc.plain && isPlainSafe c }
    else if !isPrintable c then none
    else scanBlock full lineWidth shouldTrackWidth rest (i + 1) { acc with plain := acc.plain && isPlainSafe c }

/-- `chooseScalarStyle`: decide the scalar style for a non-empty string.
In single-line-only mode `hasLineBreak`/`hasFoldableLine` stay `false`, so
the common resolution step collapses to the plain/single choice. -/
def chooseScalarStyle (s : JStr) (singleLineOnly : Bool) (indentPerLevel : Int)
    (lineWidth : Int) (testAmbiguousType : JStr → Bool) : ScalarStyle :=
  let shouldTrackWidth := lineWidth ≠ -1
  let plain0 := isPlainSafeFirst (s.getD 0 0) && !isWhiteSpace (s.getD (s.length - 1) 0)
  if singleLineOnly then
    match scanSingleLine s plain0 with
    | none => .double
    | some plain => if plain && !testAmbiguousType s then .plain else .single
  else
    match scanBlock s lineWidth shouldTrackWidth s 0 ⟨false, false, -1, plain0⟩ with
    | none => .double
    | some acc =>
      let hasFoldableLine := acc.hasFoldableLine ||
        (shouldTrackWidth && decide ((s.length : Int) - acc.previousLineBreak - 1 > lineWidth) &&
          s.getD (acc.previousLineBreak + 1).toNat 0 != SPACE)
      if !acc.hasLineBreak && !hasFoldableLine then
        if acc.plain && !testAmbiguousType s then .plain else .single
      else if indentPerLevel > 9 && needIndentIndicator s then .double
      else if hasFoldableLine then .folded else .literal

/-! ### Dumper state -/

/-- The `sortKeys` option: a boolean or a comparator. -/
inductive SortKeysOpt where
  | ofBool (b : Bool)
  | cmp (f : JStr → JStr → Int)

/-- `DumperStateOptions` with the constructor's documented defaults.  The
schema and per-tag style map are external collaborators; the only piece of
schema behaviour the modelled value kinds consult is
`testImplicitResolving` over `schema.implicitTypes`, summarised by the
`implicitResolves` predicate. -/
structure DumperStateOptions where
  indent : Int := 2
  arrayIndent : Bool := true
  skipInvalid : Bool := false
  flowLevel : Int := -1
  sortKeys : SortKeysOpt := .ofBool false
  lineWidth : Int := 80
  useAnchors : Bool := true
  compatMode : Bool := true
  condenseFlow : Bool := false
  implicitResolves : JStr → Bool := fun _ => false

/-- `DumperState`: the per-call configuration plus the duplicate registry
(`duplicates`, filled by `getDuplicateReferences`).  The mutable
`usedDuplicates` set is threaded separately as render state. -/
structure DumperState where
  indent : Int
  arrayIndent : Bool
  skipInvalid : Bool
  flowLevel : Int
  sortKeys : SortKeysOpt
  lineWidth : Int
  useAnchors : Bool
  compatMode : Bool
  condenseFlow : Bool
  implicitResolves : JStr → Bool
  duplicates : List Nat

/-- The `DumperState` constructor: records the options, clamping `indent`
to a minimum of 1 (`Math.max(1, indent)`). -/
def DumperState.ofOptions (o : DumperStateOptions) : DumperState where
  indent := max 1 o.indent
  arrayIndent := o.arrayIndent
  skipInvalid := o.skipInvalid
  flowLevel := o.flowLevel
  sortKeys := o.sortKeys
  lineWidth := o.lineWidth
  useAnchors := o.useAnchors
  compatMode := o.compatMode
  condenseFlow := o.condenseFlow
  implicitResolves := o.implicitResolves
  duplicates := []

/-- The width budget computed at the start of `stringifyScalar`:
`lineWidth === -1 ? -1 : Math.max(Math.min(this.lineWidth, 40), this.lineWidth - indent)`
with `indent = this.indent * Math.max(1, level)`. -/
def effectiveLineWidth (lineWidthOpt indentOpt : Int) (level : Nat) : Int :=
  let indent := indentOpt * max 1 (level : Int)
  if lineWidthOpt = -1 then -1
  else max (min lineWidthOpt 40) (lineWidthOpt - indent)

/-- `string.replace(/'/g, "''")`. -/
def singleQuoteBody : JStr → JStr
  | [] => []
  | c :: rest => (if c = 0x27 then [0x27, 0x27] else [c]) ++ singleQuoteBody rest

/-- `DumperState.stringifyScalar`. -/
def DumperState.stringifyScalar (cfg : DumperState) (s : JStr) (level : Nat)
    (isKey : Bool) : Except DumpErr JStr :=
  if s.length = 0 then .ok (js "''")
  else if cfg.compatMode && DEPRECATED_BOOLEANS_SYNTAX.contains s then
    .ok ([0x27] ++ s ++ [0x27])
  else
    let indent : Int := cfg.indent * max 1 (level : Int)
    let lineWidth : Int := effectiveLineWidth cfg.lineWidth cfg.indent level
    let singleLineOnly := isKey || (decide (cfg.flowLevel > -1) && decide ((level : Int) ≥ cfg.flowLevel))
    match chooseScalarStyle s singleLineOnly cfg.indent lineWidth cfg.implicitResolves with
    | .plain => .ok s
    | .single => .ok ([0x27] ++ singleQuoteBody s ++ [0x27])
    | .literal =>
      .ok ([0x7c] ++ blockHeader s cfg.indent ++ trimTrailingNewline (indentString s indent.toNat))
    | .folded =>
      .ok ([0x3e] ++ blockHeader s cfg.indent ++
        trimTrailingNewline (indentString (foldString s lineWidth) indent.toNat))
    | .double =>
      match escapeString s with
      | .error e => .error e
      | .ok body => .ok ([0x22] ++ body ++ [0x22])

example :
    (DumperState.ofOptions {}).stringifyScalar (js "yes") 0 false = .ok (js "'yes'") := by rfl
example :
    (DumperState.ofOptions {}).stringifyScalar (js "x") 0 false = .ok (js "x") := by rfl
example :
    (DumperState.ofOptions {}).stringifyScalar [LINE_FEED] 0 false = .ok (js "|+\n") := by rfl
example :
    (DumperState.ofOptions {}).stringifyScalar (js "a\nb") 0 false = .ok (js "|-\n  a\n  b") := by rfl

/-! ### Tree values and the containment heap

JS objects are compared by identity (`objects.includes`, `Set`), so a
node's identity is modelled as an index `id` into a heap of objects;
`vref id` is the JS object reference.  Strings and unsupported kinds
(functions, `undefined`, …) are not objects. -/

/-- A JS value as seen by the dumper: a string, an object/array reference,
or a value of an unsupported kind (no schema matcher applies to it). -/
inductive YamlVal where
  | vstr (s : JStr)
  | vref (id : Nat)
  | vother
deriving DecidableEq, Repr

/-- A heap object: a plain mapping (insertion-ordered fields with unique
keys) or an array. -/
inductive HeapObj where
  | map (fields : List (JStr × YamlVal))
  | arr (elems : List YamlVal)
deriving DecidableEq, Repr

/-- The containment heap; a reference `vref i` denotes `objs[i]`.  In JS a
reference always denotes an existing object, so the default for an
out-of-range index is immaterial. -/
structure Heap where
  objs : List HeapObj
deriving DecidableEq, Repr

/-- The object denoted by reference `i`. -/
def Heap.obj (h : Heap) (i : Nat) : HeapObj := h.objs.getD i (.map [])

/-- The values contained in object `i`: `Object.values` for a mapping
(keys are strings, not contained values), the elements for an array. -/
def childVals (h : Heap) (i : Nat) : List YamlVal :=
  match h.obj i with
  | .map fields => fields.map Prod.snd
  | .arr elems => elems

/-! ### Duplicate/anchor pre-scan (`inspectNode`, `getDuplicateReferences`) -/

/-- State of the pre-scan: the identity-ordered visited list `objects`
and the duplicate set in insertion order (JS `Set` iterates insertion
order, which is the order `this.duplicates` is later filled in). -/
structure ScanState where
  objects : List Nat
  duplicateObjects : List Nat
deriving DecidableEq, Repr

/-- `Set.prototype.add`: append if absent. -/
def setAdd (s : List Nat) (i : Nat) : List Nat := if i ∈ s then s else s ++ [i]

/-- The `for (const value of entries)` loop of `inspectNode`. -/
def inspectChildren (go : YamlVal → ScanState → Option ScanState) :
    List YamlVal → ScanState → Option ScanState
  | [], st => some st
  | v :: rest, st =>
    match go v st with
    | none => none
    | some st' => inspectChildren go rest st'

/-- `inspectNode`: pre-order walk over containment; a node seen a second
time is added to the duplicate set and not re-descended.  `none` models
running out of fuel (the source recursion has no explicit bound). -/
def inspectNode (h : Heap) : Nat → YamlVal → ScanState → Option ScanState
  | 0, _, _ => none
  | fuel + 1, object, st =>
    match object with
    | .vref i =>
      if i ∈ st.objects then
        some { st with duplicateObjects := setAdd st.duplicateObjects i }
      else
        inspectChildren (fun v s => inspectNode h fuel v s) (childVals h i)
          { st with objects := st.objects ++ [i] }
    | _ => some st

/-- `getDuplicateReferences`: run the pre-scan from fresh registries and
collect the duplicate set (in insertion order) as the duplicates list;
the used set is reset by the caller starting from a fresh render state. -/
def getDuplicateReferences (h : Heap) (fuel : Nat) (object : YamlVal) : Option (List Nat) :=
  match inspectNode h fuel object ⟨[], []⟩ with
  | none => none
  | some st => some st.duplicateObjects

/-! ### Render state and container loops -/

/-- Ghost trace of anchor bookkeeping: `anchor i` is recorded exactly when
node `i` is added to `usedDuplicates` (the moment its `&ref_N` marker is
produced), `alias i` exactly when `*ref_N` is returned for it.  The trace
does not influence the produced text. -/
inductive AnchorEvent where
  | anchor (i : Nat)
  | alias (i : Nat)
deriving DecidableEq, Repr

/-- Render-pass state: the `usedDuplicates` set plus the ghost trace. -/
structure RState where
  used : List Nat
  events : List AnchorEvent
deriving DecidableEq, Repr

/-- Append a ghost event. -/
def pushEvent (st : RState) (e : AnchorEvent) : RState :=
  { st with events := st.events ++ [e] }

/-- `Array.prototype.indexOf`: index of the first occurrence, `-1` if absent. -/
def jsIndexOfAux : List Nat → Nat → Nat → Int
  | [], _, _ => -1
  | x :: rest, a, k => if x = a then (k : Int) else jsIndexOfAux rest a (k + 1)

/-- `this.duplicates.indexOf(object)`. -/
def jsIndexOf (l : List Nat) (a : Nat) : Int := jsIndexOfAux l a 0

/-- The recursive serializer's signature, abstracted so that each
container loop can be stated about an arbitrary child serializer:
level, value, block, compact, isKey, state. -/
abbrev Child := Nat → YamlVal → Bool → Bool → Bool → RState → Except DumpErr (Option JStr × RState)

/-- The element loop of `stringifyFlowSequence` (`index` counts all
elements, including skipped invalid ones). -/
def flowSeqLoop (condenseFlow : Bool) (child : Child) (level : Nat) :
    List YamlVal → Nat → JStr → RState → Except DumpErr (JStr × RState)
  | [], _, result, st => .ok (result, st)
  | v :: rest, index, result, st =>
    match child level v false false false st with
    | .error e => .error e
    | .ok (none, st') => flowSeqLoop condenseFlow child level rest (index + 1) result st'
    | .ok (some s, st') =>
      flowSeqLoop condenseFlow child level rest (index + 1)
        (result ++ (if index ≠ 0 then [0x2c] ++ (if !condenseFlow then [SPACE] else []) else []) ++ s) st'

/-- `stringifyFlowSequence`. -/
def stringifyFlowSequence (condenseFlow : Bool) (child : Child) (elems : List YamlVal)
    (level : Nat) (st : RState) : Except DumpErr (JStr × RState) :=
  match flowSeqLoop condenseFlow child level elems 0 [] st with
  | .error e => .error e
  | .ok (result, st') => .ok ([0x5b] ++ result ++ [0x5d], st')

/-- The element loop of `stringifyBlockSequence`. -/
def blockSeqLoop (indent : Int) (child : Child) (level : Nat) (compact : Bool) :
    List YamlVal → Nat → JStr → RState → Except DumpErr (JStr × RState)
  | [], _, result, st => .ok (result, st)
  | v :: rest, index, result, st =>
    match child (level + 1) v true true false st with
    | .error e => .error e
    | .ok (none, st') => blockSeqLoop indent child level compact rest (index + 1) result st'
    | .ok (some s, st') =>
      let pre := if !compact ∨ index ≠ 0 then generateNextLine indent level else []
      let dash := if s ≠ [] ∧ s.getD 0 0 = LINE_FEED then [0x2d] else [0x2d, SPACE]
      blockSeqLoop indent child level compact rest (index + 1) (result ++ pre ++ dash ++ s) st'

/-- `stringifyBlockSequence` (`"[]"` when no valid element produced text). -/
def stringifyBlockSequence (indent : Int) (child : Child) (elems : List YamlVal)
    (level : Nat) (compact : Bool) (st : RState) : Except DumpErr (JStr × RState) :=
  match blockSeqLoop indent child level compact elems 0 [] st with
  | .error e => .error e
  | .ok (result, st') => .ok ((if result = [] then js "[]" else result), st')

/-- The pair loop of `stringifyFlowMapping`.  Note that the comma-space
separator is appended to the pair buffer after the opening quote that
`condenseFlow` adds, exactly as in the source. -/
def flowMapLoop (condenseFlow : Bool) (child : Child) (level : Nat) :
    List (JStr × YamlVal) → Nat → JStr → RState → Except DumpErr (JStr × RState)
  | [], _, result, st => .ok (result, st)
  | (objectKey, objectValue) :: rest, index, result, st =>
    let pairBuffer := (if condenseFlow then [0x22] else []) ++ (if index ≠ 0 then js ", " else [])
    match child level (.vstr objectKey) false false false st with
    | .error e => .error e
    | .ok (none, st') => flowMapLoop condenseFlow child level rest (index + 1) result st'
    | .ok (some keyString, st') =>
      let pairBuffer := pairBuffer ++ (if keyString.length > 1024 then js "? " else [])
      let pairBuffer := pairBuffer ++ keyString ++ (if condenseFlow then [0x22] else []) ++
        [0x3a] ++ (if !condenseFlow then [SPACE] else [])
      match child level objectValue false false false st' with
      | .error e => .error e
      | .ok (none, st'') => flowMapLoop condenseFlow child level rest (index + 1) result st''
      | .ok (some valueString, st'') =>
        flowMapLoop condenseFlow child level rest (index + 1)
          (result ++ pairBuffer ++ valueString) st''

/-- `stringifyFlowMapping`. -/
def stringifyFlowMapping (condenseFlow : Bool) (child : Child)
    (fields : List (JStr × YamlVal)) (level : Nat) (st : RState) :
    Except DumpErr (JStr × RState) :=
  match flowMapLoop condenseFlow child level fields 0 [] st with
  | .error e => .error e
  | .ok (result, st') => .ok ([0x7b] ++ result ++ [0x7d], st')

/-- JS default string comparison (`<` on code-unit sequences), used by
`objectKeyList.sort()`. -/
def jstrLtb : JStr → JStr → Bool
  | [], [] => false
  | [], _ :: _ => true
  | _ :: _, [] => false
  | a :: as, b :: bs => if a < b then true else if b < a then false else jstrLtb as bs

/-- Stable insertion of `x` after every element strictly before it. -/
def insertBy (lt : JStr → JStr → Bool) (x : JStr) : List JStr → List JStr
  | [] => [x]
  | y :: rest => if lt y x then y :: insertBy lt x rest else x :: y :: rest

/-- Stable sort by a strict-before predicate (models `Array.prototype.sort`,
which is stable). -/
def sortBy (lt : JStr → JStr → Bool) : List JStr → List JStr
  | [] => []
  | x :: rest => insertBy lt x (sortBy lt rest)

/-- The pair loop of `stringifyBlockMapping`; `pairs` is the mapping (for
the `object[objectKey]` lookup — keys are unique, so the first match is
the JS lookup), the current key list is the recursion argument. -/
def blockMapLoop (indent : Int) (child : Child) (pairs : List (JStr × YamlVal))
    (tag : Option JStr) (level : Nat) (compact : Bool) :
    List JStr → Nat → JStr → RState → Except DumpErr (JStr × RState)
  | [], _, result, st => .ok (result, st)
  | objectKey :: rest, index, result, st =>
    let pairBuffer := if !compact ∨ index ≠ 0 then generateNextLine indent level else []
    let objectValue := (pairs.lookup objectKey).getD .vother
    match child (level + 1) (.vstr objectKey) true true true st with
    | .error e => .error e
    | .ok (none, st') =>
      blockMapLoop indent child pairs tag level compact rest (index + 1) result st'
    | .ok (some keyString, st') =>
      let explicitPair := (tag ≠ none ∧ tag ≠ some (js "?")) ∨ keyString.length > 1024
      let pairBuffer := pairBuffer ++
        (if explicitPair then
          (if keyString ≠ [] ∧ keyString.getD 0 0 = LINE_FEED then [0x3f] else [0x3f, SPACE])
         else [])
      let pairBuffer := pairBuffer ++ keyString ++
        (if explicitPair then generateNextLine indent level else [])
      match child (level + 1) objectValue true explicitPair false st' with
      | .error e => .error e
      | .ok (none, st'') =>
        blockMapLoop indent child pairs tag level compact rest (index + 1) result st''
      | .ok (some valueString, st'') =>
        let pairBuffer := pairBuffer ++
          (if valueString ≠ [] ∧ valueString.getD 0 0 = LINE_FEED then [0x3a] else [0x3a, SPACE]) ++
          valueString
        blockMapLoop indent child pairs tag level compact rest (index + 1) (result ++ pairBuffer) st''

/-- `stringifyBlockMapping`: optional key sort, then the pair loop
(`"{}"` when no valid pair produced text).  The fatal sort-policy
configuration error concerns values outside the typed `boolean | function`
option and is unreachable over `SortKeysOpt`. -/
def stringifyBlockMapping (cfg : DumperState) (child : Child)
    (fields : List (JStr × YamlVal)) (tag : Option JStr) (level : Nat) (compact : Bool)
    (st : RState) : Except DumpErr (JStr × RState) :=
  let objectKeyList := fields.map Prod.fst
  let objectKeyList :=
    match cfg.sortKeys with
    | .ofBool true => sortBy jstrLtb objectKeyList
    | .ofBool false => objectKeyList
    | .cmp f => sortBy (fun a b => decide (f a b < 0)) objectKeyList
  match blockMapLoop cfg.indent child fields tag level compact objectKeyList 0 [] st with
  | .error e => .error e
  | .ok (result, st') => .ok ((if result = [] then js "{}" else result), st')

/-! ### `stringifyNode` and `stringify` -/

/-- The level a sequence is rendered at:
`!this.arrayIndent && level > 0 ? level - 1 : level`. -/
def arrayLevelOf (arrayIndent : Bool) (level : Nat) : Nat :=
  if !arrayIndent ∧ level > 0 then level - 1 else level

/-- The object/array-reference branch of `stringifyNode`: flow demotion,
duplicate/alias handling, anchor marking, and dispatch to the four
container renderers.  `child` is the recursive serializer one fuel level
down.  (The schema probe matches none of the modelled value kinds, so
`tag` is null, the represented value is unchanged, and the final `!<tag>`
wrap is skipped; the flow demotion computed before the dispatch is only
consulted here, mappings/sequences being the only users of `block`.) -/
def stringifyRef (cfg : DumperState) (h : Heap) (child : Child) (level : Nat) (i : Nat)
    (block0 compact0 : Bool) (st : RState) : Except DumpErr (Option JStr × RState) :=
  let tag : Option JStr := none
  let block := block0 && decide (cfg.flowLevel < 0 ∨ cfg.flowLevel > (level : Int))
  let duplicateIndex : Int := jsIndexOf cfg.duplicates i
  let duplicate := duplicateIndex ≠ -1
  let compact :=
    if (tag ≠ none ∧ tag ≠ some (js "?")) ∨ duplicate ∨ (cfg.indent ≠ 2 ∧ level > 0) then
      false
    else compact0
  if duplicate ∧ i ∈ st.used then
    .ok (some (js "*ref_" ++ natToDec duplicateIndex.toNat), pushEvent st (.alias i))
  else
    let st1 := if duplicate then pushEvent { st with used := st.used ++ [i] } (.anchor i) else st
    match h.obj i with
    | .map fields =>
      if block ∧ fields ≠ [] then
        match stringifyBlockMapping cfg child fields tag level compact st1 with
        | .error e => .error e
        | .ok (body, st2) =>
          .ok (some ((if duplicate then js "&ref_" ++ natToDec duplicateIndex.toNat else []) ++ body), st2)
      else
        match stringifyFlowMapping cfg.condenseFlow child fields level st1 with
        | .error e => .error e
        | .ok (body, st2) =>
          .ok (some ((if duplicate then js "&ref_" ++ natToDec duplicateIndex.toNat ++ [SPACE] else []) ++ body), st2)
    | .arr elems =>
      let arrayLevel := arrayLevelOf cfg.arrayIndent level
      if block ∧ elems ≠ [] then
        match stringifyBlockSequence cfg.indent child elems arrayLevel compact st1 with
        | .error e => .error e
        | .ok (body, st2) =>
          .ok (some ((if duplicate then js "&ref_" ++ natToDec duplicateIndex.toNat else []) ++ body), st2)
      else
        match stringifyFlowSequence cfg.condenseFlow child elems arrayLevel st1 with
        | .error e => .error e
        | .ok (body, st2) =>
          .ok (some ((if duplicate then js "&ref_" ++ natToDec duplicateIndex.toNat ++ [SPACE] else []) ++ body), st2)

/-- `DumperState.stringifyNode`.  Fuel only bounds the recursion depth;
`.error .outOfFuel` models the source recursing deeper than the supplied
fuel. -/
def stringifyNode (cfg : DumperState) (h : Heap) :
    Nat → Nat → YamlVal → Bool → Bool → Bool → RState → Except DumpErr (Option JStr × RState)
  | 0, _, _, _, _, _, _ => .error .outOfFuel
  | fuel + 1, level, object, block0, compact0, isKey, st =>
    match object with
    | .vref i =>
      stringifyRef cfg h (fun l v b c k s => stringifyNode cfg h fuel l v b c k s)
        level i block0 compact0 st
    | .vstr s =>
      match cfg.stringifyScalar s level isKey with
      | .error e => .error e
      | .ok r => .ok (some r, st)
    | .vother =>
      if cfg.skipInvalid then .ok (none, st)
      else .error (.typeError "unacceptable kind of an object to dump")

theorem stringifyNode_zero (cfg : DumperState) (h : Heap) (level : Nat) (v : YamlVal)
    (b c k : Bool) (st : RState) :
    stringifyNode cfg h 0 level v b c k st = .error .outOfFuel := rfl

theorem stringifyNode_vref (cfg : DumperState) (h : Heap) (fuel level i : Nat)
    (b c k : Bool) (st : RState) :
    stringifyNode cfg h (fuel + 1) level (.vref i) b c k st =
      stringifyRef cfg h (fun l v b c k s => stringifyNode cfg h fuel l v b c k s)
        level i b c st := rfl

theorem stringifyNode_vstr (cfg : DumperState) (h : Heap) (fuel level : Nat) (s : JStr)
    (b c k : Bool) (st : RState) :
    stringifyNode cfg h (fuel + 1) level (.vstr s) b c k st =
      (match cfg.stringifyScalar s level k with
       | .error e => .error e
       | .ok r => .ok (some r, st)) := rfl

theorem stringifyNode_vother (cfg : DumperState) (h : Heap) (fuel level : Nat)
    (b c k : Bool) (st : RState) :
    stringifyNode cfg h (fuel + 1) level .vother b c k st =
      (if cfg.skipInvalid then .ok (none, st)
       else .error (.typeError "unacceptable kind of an object to dump")) := rfl

/-- `DumperState.stringify`: optional duplicate pre-scan, then one render
of the root at level 0 (block, compact), then the final newline — or the
empty string when the root itself was skipped as invalid. -/
def DumperState.stringify (cfg : DumperState) (h : Heap) (fuel : Nat) (data : YamlVal) :
    Except DumpErr JStr :=
  match (if cfg.useAnchors then getDuplicateReferences h fuel data else some cfg.duplicates) with
  | none => .error .outOfFuel
  | some dups =>
    match stringifyNode { cfg with duplicates := dups } h fuel 0 data true true false ⟨[], []⟩ with
    | .error e => .error e
    | .ok (some s, _) => .ok (s ++ [LINE_FEED])
    | .ok (none, _) => .ok []

/-! ### Decidability of result equality (for concrete checks) -/

instance {e a : Type} [DecidableEq e] [DecidableEq a] : DecidableEq (Except e a) := fun x y =>
  match x, y with
  | .ok x, .ok y =>
    if h : x = y then isTrue (by rw [h]) else isFalse (fun hh => by cases hh; exact h rfl)
  | .error x, .error y =>
    if h : x = y then isTrue (by rw [h]) else isFalse (fun hh => by cases hh; exact h rfl)
  | .ok _, .error _ => isFalse (fun hh => Except.noConfusion hh)
  | .error _, .ok _ => isFalse (fun hh => Except.noConfusion hh)

/-! ### C7: the active width budget -/

/-- With width tracking off, the block scan never marks a foldable line. -/
theorem scanBlock_foldable_of_not_track (full : JStr) (lw : Int) :
    ∀ (l : List Nat) (i : Int) (acc acc' : BlockScan),
      scanBlock full lw false l i acc = some acc' →
      acc'.hasFoldableLine = acc.hasFoldableLine := by
  intro l
  induction l with
  | nil => intro i acc acc' h; cases h; rfl
  | cons c rest ih =>
    intro i acc acc' h
    rw [scanBlock] at h
    by_cases hc : c = LINE_FEED
    · rw [if_pos hc] at h
      simp only [Bool.false_eq_true, if_false] at h
      exact (ih _ _ _ h).trans rfl
    · rw [if_neg hc] at h
      by_cases hp : isPrintable c
      · rw [if_neg (by simp [hp] : ¬ ((!isPrintable c) = true))] at h
        exact (ih _ _ _ h).trans rfl
      · rw [if_pos (by simp [hp] : (!isPrintable c) = true)] at h
        exact absurd h (by simp)

/-- With `lineWidth = -1` the style chooser never selects the folded
style: no line is ever considered foldable. -/
theorem chooseScalarStyle_unlimited (s : JStr) (slo : Bool) (ind : Int)
    (amb : JStr → Bool) : chooseScalarStyle s slo ind (-1) amb ≠ ScalarStyle.folded := by
  rw [chooseScalarStyle]
  by_cases hslo : slo
  · rw [if_pos hslo]
    rcases hscan : scanSingleLine s (isPlainSafeFirst (s.getD 0 0) && !isWhiteSpace (s.getD (s.length - 1) 0)) with _ | plain
    · simp [hscan]
    · simp only [hscan]
      split <;> simp
  · rw [if_neg hslo]
    have htrack : (decide ((-1 : Int) ≠ -1)) = false := by decide
    rcases hscan : scanBlock s (-1) (decide ((-1 : Int) ≠ -1)) s 0
        ⟨false, false, -1, isPlainSafeFirst (s.getD 0 0) && !isWhiteSpace (s.getD (s.length - 1) 0)⟩ with _ | acc
    · simp [hscan]
    · rw [htrack] at hscan
      have hfold : acc.hasFoldableLine = false := scanBlock_foldable_of_not_track s (-1) _ _ _ _ hscan
      simp only [hscan, htrack]
      simp only [hfold, Bool.false_and, Bool.and_false, Bool.false_or, Bool.or_false]
      split
      · split <;> simp
      · split
        · simp
        · simp

/-- C7: for every `lineWidth ≠ -1` the active width budget at nesting
level `L` equals `max(min(lineWidth,40), lineWidth - indent*max(1,L))`;
it is bounded below by `min(lineWidth,40)` and non-increasing in `L`;
for `lineWidth = -1` the budget is `-1` and the width is unlimited (no
line is ever foldable, so the folded style is never chosen). -/
theorem claim_C7 (lw ind : Int) (L LD : Nat) (hind : 1 ≤ ind) :
    (lw ≠ -1 →
      effectiveLineWidth lw ind L = max (min lw 40) (lw - ind * max 1 (L : Int)) ∧
      min lw 40 ≤ effectiveLineWidth lw ind L ∧
      (L ≤ LD → effectiveLineWidth lw ind LD ≤ effectiveLineWidth lw ind L)) ∧
    (lw = -1 →
      effectiveLineWidth lw ind L = -1 ∧
      ∀ s slo amb, chooseScalarStyle s slo ind lw amb ≠ ScalarStyle.folded) := by
  constructor
  · intro hne
    refine ⟨by rw [effectiveLineWidth, if_neg hne], ?_, ?_⟩
    · rw [effectiveLineWidth, if_neg hne]
      exact le_max_left _ _
    · intro hLL
      rw [effectiveLineWidth, if_neg hne, effectiveLineWidth, if_neg hne]
      refine max_le_max (le_refl _) ?_
      have hmul : ind * max 1 (L : Int) ≤ ind * max 1 (LD : Int) := by
        refine mul_le_mul_of_nonneg_left ?_ (by omega)
        have : (L : Int) ≤ (LD : Int) := by exact_mod_cast hLL
        omega
      omega
  · intro heq
    subst heq
    exact ⟨by rw [effectiveLineWidth]; rfl, fun s slo amb => chooseScalarStyle_unlimited s slo ind amb⟩

/-- Witness for C7 at `lineWidth = 80`, `indent = 2`, levels 1 and 3. -/
theorem claim_C7_witness :
    effectiveLineWidth 80 2 3 = max (min 80 40) (80 - 2 * max 1 (3 : Int)) ∧
    effectiveLineWidth 80 2 3 ≤ effectiveLineWidth 80 2 1 ∧
    effectiveLineWidth (-1) 2 1 = -1 := by
  refine ⟨((claim_C7 80 2 3 3 (by decide)).1 (by decide)).1,
    ((claim_C7 80 2 1 3 (by decide)).1 (by decide)).2.2 (by decide),
    ((claim_C7 (-1) 2 1 1 (by decide)).2 rfl).1⟩

/-! ### C9: indent clamping -/

/-- C9: an `indent` option below 1 raises no error (the constructor is
total) and yields exactly the state — and hence exactly the behaviour —
of `indent = 1`: the constructor clamps via `Math.max(1, indent)`. -/
theorem claim_C9 (o : DumperStateOptions) (hlt : o.indent < 1) :
    DumperState.ofOptions o = DumperState.ofOptions { o with indent := 1 } ∧
    ∀ h fuel v, (DumperState.ofOptions o).stringify h fuel v =
      (DumperState.ofOptions { o with indent := 1 }).stringify h fuel v := by
  have hmax : max 1 o.indent = (1 : Int) := by omega
  have heq : DumperState.ofOptions o = DumperState.ofOptions { o with indent := 1 } := by
    simp [DumperState.ofOptions, hmax]
  exact ⟨heq, fun h fuel v => by rw [heq]⟩

/-- Witness for C9 at `indent = 0`. -/
theorem claim_C9_witness :
    DumperState.ofOptions { indent := 0 } = DumperState.ofOptions { indent := 1 } ∧
    (DumperState.ofOptions { indent := 0 }).stringify ⟨[]⟩ 2 (.vstr (js "a")) =
      (DumperState.ofOptions { indent := 1 }).stringify ⟨[]⟩ 2 (.vstr (js "a")) :=
  ⟨(claim_C9 { indent := 0 } (by norm_num)).1,
   (claim_C9 { indent := 0 } (by norm_num)).2 ⟨[]⟩ 2 (.vstr (js "a"))⟩

/-! ### C8: the double-quote escaper never throws on valid UTF-16 -/

/-- The allowed shapes of one emitted chunk of `escapeString`: a verbatim
printable character, a named two-character escape, or a hex escape. -/
def EscPieceOk (p : JStr) : Prop :=
  (∃ c, p = [c] ∧ isPrintable c = true) ∨
  (∃ c, ESCAPE_SEQUENCES.lookup c = some p) ∨
  (∃ c, charCodeToHexString c = .ok p)

theorem charCodeToHexString_ok (n : Nat) (h : n ≤ 0xffffffff) :
    ∃ p, charCodeToHexString n = .ok p := by
  rw [charCodeToHexString]
  by_cases h1 : n ≤ 0xff
  · exact ⟨_, by rw [if_pos h1]⟩
  · by_cases h2 : n ≤ 0xffff
    · exact ⟨_, by rw [if_neg h1, if_pos h2]⟩
    · exact ⟨_, by rw [if_neg h1, if_neg h2, if_pos h]⟩

theorem escapeUnit_ok (c : Nat) (hc : c < 0x10000) :
    ∃ p, escapeUnit c = .ok p ∧ EscPieceOk p := by
  rw [escapeUnit]
  rcases hl : ESCAPE_SEQUENCES.lookup c with _ | seq
  · by_cases hp : isPrintable c
    · exact ⟨[c], by rw [if_pos hp], Or.inl ⟨c, rfl, hp⟩⟩
    · obtain ⟨p, hop⟩ := charCodeToHexString_ok c (by omega)
      exact ⟨p, by rw [if_neg hp]; exact hop, Or.inr (Or.inr ⟨c, hop⟩)⟩
  · exact ⟨seq, rfl, Or.inr (Or.inl ⟨c, hl⟩)⟩

theorem escapeStringAux_pieces :
    ∀ (units : JStr) (skip : Bool), (∀ u ∈ units, u < 0x10000) →
      ∃ pieces : List JStr, escapeStringAux units skip = .ok pieces.flatten ∧
        ∀ p ∈ pieces, EscPieceOk p := by
  intro units
  induction units with
  | nil => intro skip _; exact ⟨[], rfl, by simp⟩
  | cons c rest ih =>
    intro skip hval
    rw [escapeStringAux_cons]
    cases skip with
    | true =>
      obtain ⟨pieces, hrec, hpok⟩ := ih false (fun u hu => hval u (by simp [hu]))
      exact ⟨pieces, by rw [escapeStringStep, if_pos rfl]; exact hrec, hpok⟩
    | false =>
      by_cases hcond : 0xd800 ≤ c ∧ c ≤ 0xdbff ∧ 0xdc00 ≤ rest.getD 0 0 ∧ rest.getD 0 0 ≤ 0xdfff
      · obtain ⟨hc1, hc2, hn1, hn2⟩ := hcond
        obtain ⟨p, hop⟩ := charCodeToHexString_ok (combineSurrogates c (rest.getD 0 0))
          (le_trans (combineSurrogates_le c (rest.getD 0 0) hc1 hc2 hn1 hn2) (by norm_num))
        obtain ⟨pieces, hrec, hpok⟩ := ih true (fun u hu => hval u (by simp [hu]))
        refine ⟨p :: pieces, ?_, ?_⟩
        · rw [escapeStringStep, if_neg (by simp), if_pos ⟨hc1, hc2, hn1, hn2⟩, hop, hrec]
          simp
        · intro q hq
          rcases List.mem_cons.mp hq with hq | hq
          · exact hq ▸ Or.inr (Or.inr ⟨_, hop⟩)
          · exact hpok q hq
      · obtain ⟨p, hop, hpieceok⟩ := escapeUnit_ok c (hval c (by simp))
        obtain ⟨pieces, hrec, hpok⟩ := ih false (fun u hu => hval u (by simp [hu]))
        refine ⟨p :: pieces, ?_, ?_⟩
        · rw [escapeStringStep, if_neg (by simp), if_neg hcond, hop, hrec]
          simp
        · intro q hq
          rcases List.mem_cons.mp hq with hq | hq
          · exact hq ▸ hpieceok
          · exact hpok q hq

theorem escapeString_pieces (units : JStr) (hval : ∀ u ∈ units, u < 0x10000) :
    ∃ pieces : List JStr, escapeString units = .ok pieces.flatten ∧ ∀ p ∈ pieces, EscPieceOk p :=
  escapeStringAux_pieces units false hval

/-- C8: on every valid UTF-16 code-unit sequence the double-quote escaper
never reaches its internal `> 0xFFFFFFFF` error: it succeeds, emitting
each character verbatim, as a named escape, or as a hex escape — in
particular a recombined surrogate pair never exceeds `0x10FFFF`. -/
theorem claim_C8 (units : JStr) (hval : ∀ u ∈ units, u < 0x10000) :
    (∃ pieces : List JStr, escapeString units = .ok pieces.flatten ∧ ∀ p ∈ pieces, EscPieceOk p) ∧
    (∀ c n, 0xd800 ≤ c → c ≤ 0xdbff → 0xdc00 ≤ n → n ≤ 0xdfff →
      combineSurrogates c n ≤ 0x10ffff) := by
  refine ⟨escapeString_pieces units hval, ?_⟩
  intro c n h1 h2 h3 h4
  exact combineSurrogates_le c n h1 h2 h3 h4

/-- Witness for C8 on the surrogate pair of U+1F600. -/
theorem claim_C8_witness :
    (∀ u ∈ ([0xd83d, 0xde00] : JStr), u < 0x10000) ∧
    (∃ pieces : List JStr, escapeString [0xd83d, 0xde00] = .ok pieces.flatten ∧
      ∀ p ∈ pieces, EscPieceOk p) ∧
    escapeString [0xd83d, 0xde00] = .ok (js "\\U0001F600") :=
  ⟨by decide, (claim_C8 [0xd83d, 0xde00] (by decide)).1, by rfl⟩

/-! ### C4: the final newline and the empty-output condition -/

/-- A successful render of an object/array reference always produces text
(`null` is only ever returned for unsupported leaves). -/
theorem stringifyRef_some (cfg : DumperState) (h : Heap) (child : Child) (level i : Nat)
    (b0 c0 : Bool) (st : RState) (r : Option JStr) (st' : RState)
    (hres : stringifyRef cfg h child level i b0 c0 st = .ok (r, st')) : ∃ s, r = some s := by
  rw [stringifyRef] at hres
  dsimp only at hres
  split at hres
  · simp only [Except.ok.injEq, Prod.mk.injEq] at hres
    exact ⟨_, hres.1.symm⟩
  · split at hres
    · split at hres
      · split at hres
        · exact absurd hres (fun hh => Except.noConfusion hh)
        · simp only [Except.ok.injEq, Prod.mk.injEq] at hres
          exact ⟨_, hres.1.symm⟩
      · split at hres
        · exact absurd hres (fun hh => Except.noConfusion hh)
        · simp only [Except.ok.injEq, Prod.mk.injEq] at hres
          exact ⟨_, hres.1.symm⟩
    · split at hres
      · split at hres
        · exact absurd hres (fun hh => Except.noConfusion hh)
        · simp only [Except.ok.injEq, Prod.mk.injEq] at hres
          exact ⟨_, hres.1.symm⟩
      · split at hres
        · exact absurd hres (fun hh => Except.noConfusion hh)
        · simp only [Except.ok.injEq, Prod.mk.injEq] at hres
          exact ⟨_, hres.1.symm⟩

/-- A render returning `null` can only have been given an unsupported
leaf. -/
theorem stringifyNode_ok_none (cfg : DumperState) (h : Heap) (fuel level : Nat)
    (v : YamlVal) (b c k : Bool) (st st' : RState)
    (hres : stringifyNode cfg h fuel level v b c k st = .ok (none, st')) : v = .vother := by
  cases fuel with
  | zero => exact absurd hres (by rw [stringifyNode_zero]; exact fun hh => Except.noConfusion hh)
  | succ fuel =>
    cases v with
    | vref i =>
      rw [stringifyNode_vref] at hres
      obtain ⟨s, hs⟩ := stringifyRef_some cfg h _ level i b c st none st' hres
      exact absurd hs (by simp)
    | vstr s =>
      rw [stringifyNode_vstr] at hres
      rcases hscal : cfg.stringifyScalar s level k with e | r2
      · rw [hscal] at hres
        exact absurd hres (fun hh => Except.noConfusion hh)
      · rw [hscal] at hres
        simp at hres
    | vother => rfl

/-- The unsupported-leaf branch: `null` under skip-invalid with the state
untouched, the fatal error otherwise — never text. -/
theorem stringifyNode_vother_ok (cfg : DumperState) (h : Heap) (fuel level : Nat)
    (b c k : Bool) (st st' : RState) (r : Option JStr)
    (hres : stringifyNode cfg h fuel level .vother b c k st = .ok (r, st')) :
    r = none ∧ st' = st ∧ cfg.skipInvalid = true := by
  cases fuel with
  | zero => exact absurd hres (by rw [stringifyNode_zero]; exact fun hh => Except.noConfusion hh)
  | succ fuel =>
    rw [stringifyNode_vother] at hres
    by_cases hskip : cfg.skipInvalid
    · rw [if_pos hskip] at hres
      simp only [Except.ok.injEq, Prod.mk.injEq] at hres
      exact ⟨hres.1.symm, hres.2.symm, hskip⟩
    · rw [if_neg hskip] at hres
      exact absurd hres (fun hh => Except.noConfusion hh)

/-- C4 (amended): every successful `stringify` yields either a non-empty
string whose final character is a line feed (one newline is appended to
the rendered root node) or the empty string, the latter exactly when the
root value itself is the invalid leaf dropped by the skip-invalid policy.
(As stated the claim is false: the appended newline need not be the only
trailing newline, see the counterexample.) -/
theorem claim_C4 (cfg : DumperState) (h : Heap) (fuel : Nat) (v : YamlVal) (out : JStr)
    (hok : cfg.stringify h fuel v = .ok out) :
    (out ≠ [] → out.getLast? = some LINE_FEED) ∧ (out = [] ↔ v = .vother) := by
  rw [DumperState.stringify] at hok
  rcases hd : (if cfg.useAnchors then getDuplicateReferences h fuel v else some cfg.duplicates) with _ | dups
  · rw [hd] at hok
    exact absurd hok (fun hh => Except.noConfusion hh)
  · rw [hd] at hok
    dsimp only at hok
    rcases hn : stringifyNode { cfg with duplicates := dups } h fuel 0 v true true false ⟨[], []⟩
      with e | ⟨r, stf⟩
    · rw [hn] at hok
      exact absurd hok (fun hh => Except.noConfusion hh)
    · rw [hn] at hok
      cases r with
      | some s =>
        dsimp only at hok
        simp only [Except.ok.injEq] at hok
        subst hok
        constructor
        · intro _
          exact List.getLast?_concat _
        · constructor
          · intro hemp
            exact absurd hemp (by simp)
          · intro hv
            subst hv
            obtain ⟨hnone, _, _⟩ := stringifyNode_vother_ok _ h fuel 0 true true false _ stf (some s) hn
            exact absurd hnone (by simp)
      | none =>
        dsimp only at hok
        simp only [Except.ok.injEq] at hok
        subst hok
        refine ⟨fun hne => absurd rfl hne, ?_⟩
        exact ⟨fun _ => stringifyNode_ok_none _ h fuel 0 v true true false _ stf hn, fun _ => rfl⟩

/-- Witness for C4 (amended) on the root string `"a"`. -/
theorem claim_C4_witness :
    (js "a\n" ≠ [] → (js "a\n").getLast? = some LINE_FEED) ∧
    (js "a\n" = [] ↔ (YamlVal.vstr (js "a")) = YamlVal.vother) :=
  claim_C4 (DumperState.ofOptions {}) ⟨[]⟩ 2 (.vstr (js "a")) (js "a\n") (by decide)

/-- Counterexample to C4 as stated: dumping the root string `"\n"`
produces `"|+\n\n"`, whose last two characters are both line feeds — the
output does not end in exactly one trailing newline. -/
theorem claim_C4_counterexample :
    (DumperState.ofOptions {}).stringify ⟨[]⟩ 5 (.vstr [LINE_FEED]) = .ok (js "|+\n\n") ∧
    (js "|+\n\n") ≠ [] ∧
    (js "|+\n\n").getD ((js "|+\n\n").length - 1) 0 = LINE_FEED ∧
    (js "|+\n\n").getD ((js "|+\n\n").length - 2) 0 = LINE_FEED := by decide

/-! ### C6: flow-container separators under `condenseFlow` -/

/-- The text one valid pair contributes to a flow mapping: the optional
condensed opening quote, then — for every pair after the first — the
comma-space separator, the long-key `? ` marker, the key, the optional
closing quote, the colon, the optional space, the value. -/
def flowPairChunk (condenseFlow : Bool) (index : Nat) (keyText valText : JStr) : JStr :=
  (if condenseFlow then [0x22] else []) ++ (if index ≠ 0 then js ", " else []) ++
  (if keyText.length > 1024 then js "? " else []) ++
  keyText ++ (if condenseFlow then [0x22] else []) ++ [0x3a] ++
  (if !condenseFlow then [SPACE] else []) ++ valText

/-- A flow-mapping pair whose key and value render as text contributes
exactly its `flowPairChunk`. -/
theorem flowMapLoop_cons_ok (condense : Bool) (child : Child) (level : Nat)
    (k : JStr) (v : YamlVal) (rest : List (JStr × YamlVal)) (index : Nat) (acc : JStr)
    (st st1 st2 : RState) (kt vt : JStr)
    (hk : child level (.vstr k) false false false st = .ok (some kt, st1))
    (hv : child level v false false false st1 = .ok (some vt, st2)) :
    flowMapLoop condense child level ((k, v) :: rest) index acc st =
      flowMapLoop condense child level rest (index + 1)
        (acc ++ flowPairChunk condense index kt vt) st2 := by
  rw [flowMapLoop, hk]
  dsimp only
  rw [hv]
  dsimp only
  rw [flowPairChunk]
  simp [List.append_assoc]

/-- A flow-sequence element rendering as text after the first position is
preceded by a comma, followed by a space unless condensed. -/
theorem flowSeqLoop_cons_ok (condense : Bool) (child : Child) (level : Nat)
    (v : YamlVal) (rest : List YamlVal) (index : Nat) (acc : JStr) (st st' : RState) (s : JStr)
    (hc : child level v false false false st = .ok (some s, st')) :
    flowSeqLoop condense child level (v :: rest) index acc st =
      flowSeqLoop condense child level rest (index + 1)
        (acc ++ (if index ≠ 0 then [0x2c] ++ (if !condense then [SPACE] else []) else []) ++ s) st' := by
  rw [flowSeqLoop, hc]

/-- C6 (amended): in a flow mapping, consecutive key-value pairs are
joined by comma-space `", "` whether or not `condenseFlow` is set; what
`condenseFlow` changes is the key quoting, the space after the colon
(and, in flow sequences, the space after the element comma), not the pair
separator.  Conjunct 1 gives each later pair's chunk, which always embeds
`", "` right after the optional condensed quote (conjunct 2); conjunct 3
is the flow-sequence separator, where only the space is condensed;
conjuncts 4 and 5 show the condensed and plain outputs on a two-pair
mapping, both containing `", "`. -/
theorem claim_C6 (condense : Bool) (child : Child) (level : Nat)
    (k : JStr) (v w : YamlVal) (rest : List (JStr × YamlVal)) (elems : List YamlVal)
    (index : Nat) (acc : JStr)
    (st st1 st2 st3 : RState) (kt vt s : JStr) (hidx : index ≠ 0)
    (hk : child level (.vstr k) false false false st = .ok (some kt, st1))
    (hv : child level v false false false st1 = .ok (some vt, st2))
    (hw : child level w false false false st = .ok (some s, st3)) :
    (flowMapLoop condense child level ((k, v) :: rest) index acc st =
      flowMapLoop condense child level rest (index + 1)
        (acc ++ flowPairChunk condense index kt vt) st2) ∧
    (∃ tail, flowPairChunk condense index kt vt =
      (if condense then [0x22] else []) ++ js ", " ++ tail) ∧
    (flowSeqLoop condense child level (w :: elems) index acc st =
      flowSeqLoop condense child level elems (index + 1)
        (acc ++ [0x2c] ++ (if !condense then [SPACE] else []) ++ s) st3) ∧
    (DumperState.ofOptions { condenseFlow := true, flowLevel := 0 }).stringify
        ⟨[.map [(js "a", .vstr (js "u")), (js "b", .vstr (js "w"))]]⟩ 10 (.vref 0) =
      .ok (js "\x7b\"a\":u\", b\":w\x7d\n") ∧
    (DumperState.ofOptions { flowLevel := 0 }).stringify
        ⟨[.map [(js "a", .vstr (js "u")), (js "b", .vstr (js "w"))]]⟩ 10 (.vref 0) =
      .ok (js "{a: u, b: w}\n") := by
  refine ⟨flowMapLoop_cons_ok condense child level k v rest index acc st st1 st2 kt vt hk hv,
    ⟨(if kt.length > 1024 then js "? " else []) ++ kt ++ (if condense then [0x22] else []) ++
      [0x3a] ++ (if !condense then [SPACE] else []) ++ vt, ?_⟩, ?_, by decide, by decide⟩
  · rw [flowPairChunk, if_pos hidx]
    simp [List.append_assoc]
  · rw [flowSeqLoop_cons_ok condense child level w elems index acc st st3 s hw, if_pos hidx]
    simp [List.append_assoc]

/-! ### C2: anchor-number assignment order -/

/-- The heap `[B, A, A, B]` (root array 0, `B` = node 1, `A` = node 2):
`B` is visited first in pre-order, but `A` is the first node to be
re-encountered, so `A` enters the duplicate registry first. -/
def hOrderC2 : Heap :=
  ⟨[.arr [.vref 1, .vref 2, .vref 2, .vref 1],
    .map [(js "b", .vstr (js "x"))],
    .map [(js "a", .vstr (js "u"))]]⟩

/-- Counterexample to C2 as stated: node 1 (`B`) is first visited before
node 2 (`A`) — it appears earlier in the pre-scan's visited list — yet
`A` receives anchor number 0 and `B` number 1, because the registry is
filled in order of second visits, not first visits.  The rendered
document indeed shows `&ref_1` on the node discovered first. -/
theorem claim_C2_counterexample :
    inspectNode hOrderC2 20 (.vref 0) ⟨[], []⟩ = some ⟨[0, 1, 2], [2, 1]⟩ ∧
    jsIndexOf [0, 1, 2] 1 < jsIndexOf [0, 1, 2] 2 ∧
    jsIndexOf [2, 1] 2 < jsIndexOf [2, 1] 1 ∧
    (DumperState.ofOptions {}).stringify hOrderC2 20 (.vref 0) =
      .ok (js "- &ref_1\n  b: x\n- &ref_0\n  a: u\n- *ref_0\n- *ref_1\n") := by decide

/-- The alias emission: a used duplicate renders as exactly
`*ref_N` with `N` the node's index in the duplicates registry. -/
theorem stringifyRef_alias (cfg : DumperState) (h : Heap) (child : Child) (level i : Nat)
    (b0 c0 : Bool) (st : RState) (hdup : jsIndexOf cfg.duplicates i ≠ -1)
    (hmem : i ∈ st.used) :
    stringifyRef cfg h child level i b0 c0 st =
      .ok (some (js "*ref_" ++ natToDec (jsIndexOf cfg.duplicates i).toNat),
        pushEvent st (.alias i)) := by
  rw [stringifyRef]
  dsimp only
  rw [if_pos ⟨hdup, hmem⟩]

/-- The anchor emission: the first render of a duplicate produces text
beginning with `&ref_N`, with the same `N` the alias emissions use. -/
theorem stringifyRef_anchor (cfg : DumperState) (h : Heap) (child : Child) (level i : Nat)
    (b0 c0 : Bool) (st : RState) (s : JStr) (st' : RState)
    (hdup : jsIndexOf cfg.duplicates i ≠ -1) (hmem : i ∉ st.used)
    (hres : stringifyRef cfg h child level i b0 c0 st = .ok (some s, st')) :
    ∃ t, s = js "&ref_" ++ natToDec (jsIndexOf cfg.duplicates i).toNat ++ t := by
  rw [stringifyRef] at hres
  dsimp only at hres
  rw [if_neg (fun hand => hmem hand.2)] at hres
  rw [if_pos hdup] at hres
  split at hres
  · split at hres
    · split at hres
      · exact absurd hres (fun hh => Except.noConfusion hh)
      · rename_i body st2 heq
        simp only [Except.ok.injEq, Prod.mk.injEq, Option.some.injEq] at hres
        exact ⟨body, hres.1.symm⟩
    · split at hres
      · exact absurd hres (fun hh => Except.noConfusion hh)
      · rename_i body st2 heq
        simp only [Except.ok.injEq, Prod.mk.injEq, Option.some.injEq] at hres
        refine ⟨[SPACE] ++ body, ?_⟩
        rw [← hres.1]
        simp [List.append_assoc]
  · split at hres
    · split at hres
      · exact absurd hres (fun hh => Except.noConfusion hh)
      · rename_i body st2 heq
        simp only [Except.ok.injEq, Prod.mk.injEq, Option.some.injEq] at hres
        exact ⟨body, hres.1.symm⟩
    · split at hres
      · exact absurd hres (fun hh => Except.noConfusion hh)
      · rename_i body st2 heq
        simp only [Except.ok.injEq, Prod.mk.injEq, Option.some.injEq] at hres
        refine ⟨[SPACE] ++ body, ?_⟩
        rw [← hres.1]
        simp [List.append_assoc]

/-- C2 (amended): anchor numbers are indices into the duplicate registry,
which the pre-scan fills in the order nodes are first RE-encountered (the
pre-order position of each node's second visit), not first-visit order;
within one call the anchor and every alias of a node use that same index
(conjuncts 1 and 2), so the assignment is stable within the call.
Conjunct 3 computes the registry for the `[B, A, A, B]` heap: `A`
(re-encountered first) is numbered before `B` (visited first). -/
theorem claim_C2 (cfg : DumperState) (h : Heap) (child : Child) (level i : Nat)
    (b0 c0 : Bool) (st : RState) (s : JStr) (st' : RState)
    (hdup : jsIndexOf cfg.duplicates i ≠ -1) (hmem : i ∉ st.used)
    (hres : stringifyRef cfg h child level i b0 c0 st = .ok (some s, st')) :
    (∃ t, s = js "&ref_" ++ natToDec (jsIndexOf cfg.duplicates i).toNat ++ t) ∧
    (∀ st2, i ∈ st2.used →
      stringifyRef cfg h child level i b0 c0 st2 =
        .ok (some (js "*ref_" ++ natToDec (jsIndexOf cfg.duplicates i).toNat),
          pushEvent st2 (.alias i))) ∧
    inspectNode hOrderC2 20 (.vref 0) ⟨[], []⟩ = some ⟨[0, 1, 2], [2, 1]⟩ :=
  ⟨stringifyRef_anchor cfg h child level i b0 c0 st s st' hdup hmem hres,
   fun st2 hm2 => stringifyRef_alias cfg h child level i b0 c0 st2 hdup hm2,
   by decide⟩

/-- A constant serializer used to instantiate the container-loop theorems
at concrete inputs. -/
def constChild : Child := fun _ _ _ _ _ s => .ok (some (js "t"), s)

/-- Counterexample to C6 as stated: a condensed two-pair flow mapping is
rendered with the `", "` separator (inside the following key's condensed
quote), not a bare comma. -/
theorem claim_C6_counterexample :
    (DumperState.ofOptions { condenseFlow := true, flowLevel := 0 }).stringify
        ⟨[.map [(js "a", .vstr (js "u")), (js "b", .vstr (js "w"))]]⟩ 10 (.vref 0) =
      .ok (js "\x7b\"a\":u\", b\":w\x7d\n") ∧
    (∃ p q, js "\x7b\"a\":u\", b\":w\x7d\n" = p ++ js ", " ++ q) ∧
    (DumperState.ofOptions { condenseFlow := true, flowLevel := 0 }).stringify
        ⟨[.map [(js "a", .vstr (js "u")), (js "b", .vstr (js "w"))]]⟩ 10 (.vref 0) ≠
      .ok (js "\x7b\"a\":u\",b\":w\x7d\n") :=
  ⟨by decide, ⟨js "\x7b\"a\":u\"", js "b\":w\x7d\n", by decide⟩, by decide⟩

/-- Witness for C6 (amended) with a constant child serializer. -/
theorem claim_C6_witness :
    (flowMapLoop true constChild 0 [(js "a", YamlVal.vstr (js "u"))] 1 [] ⟨[], []⟩ =
      flowMapLoop true constChild 0 [] 2 ([] ++ flowPairChunk true 1 (js "t") (js "t")) ⟨[], []⟩) ∧
    (∃ tail, flowPairChunk true 1 (js "t") (js "t") =
      (if true then [0x22] else []) ++ js ", " ++ tail) :=
  ⟨(claim_C6 true constChild 0 (js "a") (.vstr (js "u")) (.vstr (js "u")) [] [] 1 []
      ⟨[], []⟩ ⟨[], []⟩ ⟨[], []⟩ ⟨[], []⟩ (js "t") (js "t") (js "t")
      (by decide) rfl rfl rfl).1,
   (claim_C6 true constChild 0 (js "a") (.vstr (js "u")) (.vstr (js "u")) [] [] 1 []
      ⟨[], []⟩ ⟨[], []⟩ ⟨[], []⟩ ⟨[], []⟩ (js "t") (js "t") (js "t")
      (by decide) rfl rfl rfl).2.1⟩

/-- A configuration whose duplicate registry contains just node 7, for
instantiating the anchor/alias emission theorems. -/
def cfgC2W : DumperState := { DumperState.ofOptions {} with duplicates := [7] }

/-- Witness for C2 (amended) at node 7 of the empty heap. -/
theorem claim_C2_witness :
    (∃ t, js "&ref_0 {}" = js "&ref_" ++ natToDec (jsIndexOf cfgC2W.duplicates 7).toNat ++ t) ∧
    (∀ st2, 7 ∈ st2.used →
      stringifyRef cfgC2W ⟨[]⟩ constChild 0 7 true true st2 =
        .ok (some (js "*ref_" ++ natToDec (jsIndexOf cfgC2W.duplicates 7).toNat),
          pushEvent st2 (.alias 7))) ∧
    inspectNode hOrderC2 20 (.vref 0) ⟨[], []⟩ = some ⟨[0, 1, 2], [2, 1]⟩ :=
  claim_C2 cfgC2W ⟨[]⟩ constChild 0 7 true true ⟨[], []⟩ (js "&ref_0 {}")
    ⟨[7], [.anchor 7]⟩ (by decide) (by decide) (by decide)

/-! ### C10: the `arrayIndent` flag -/

/-- Following the claim's words: with `arrayIndent=false` a sequence at
nesting level `L > 0` is rendered at level `L - 1`, and at level 0
unchanged. -/
def claimSeqLevel (level : Nat) : Nat := if level > 0 then level - 1 else level

/-- `getD` yields a list element or the default. -/
theorem listGetD_mem_or_default {α : Type} (l : List α) (i : Nat) (d : α) :
    l.getD i d ∈ l ∨ l.getD i d = d := by
  induction l generalizing i with
  | nil => right; cases i <;> rfl
  | cons x xs ih =>
    cases i with
    | zero => left; simp [List.getD]
    | succ n =>
      have hstep : (x :: xs).getD (n + 1) d = xs.getD n d := rfl
      rcases ih n with hm | hd
      · left
        rw [hstep]
        exact List.mem_cons_of_mem x hm
      · right
        rw [hstep, hd]

/-- With `arrayIndent=false` the flag has no effect on heaps containing no
arrays: the flag is consulted only in the sequence dispatch. -/
theorem stringifyNode_arrayIndent_irrel (cfg : DumperState) (b1 b2 : Bool) (h : Heap)
    (hnoarr : ∀ o ∈ h.objs, ∃ fields, o = HeapObj.map fields) :
    ∀ (fuel level : Nat) (v : YamlVal) (bl c k : Bool) (st : RState),
      stringifyNode { cfg with arrayIndent := b1 } h fuel level v bl c k st =
        stringifyNode { cfg with arrayIndent := b2 } h fuel level v bl c k st := by
  intro fuel
  induction fuel with
  | zero => intro level v bl c k st; rfl
  | succ fuel ih =>
    intro level v bl c k st
    cases v with
    | vstr s => rfl
    | vother => rfl
    | vref i =>
      rw [stringifyNode_vref, stringifyNode_vref]
      have hchild : (fun l v b c k s => stringifyNode { cfg with arrayIndent := b1 } h fuel l v b c k s) =
          (fun l v b c k s => stringifyNode { cfg with arrayIndent := b2 } h fuel l v b c k s) := by
        funext l v b c k s
        exact ih l v b c k s
      rw [hchild]
      obtain ⟨fields, hf⟩ : ∃ fields, h.obj i = .map fields := by
        rcases listGetD_mem_or_default h.objs i (.map []) with hm | hd
        · exact hnoarr _ hm
        · exact ⟨[], hd⟩
      rw [stringifyRef, stringifyRef]
      dsimp only
      rw [hf]
      rfl

/-- Heap for the mapping `{a: ["x", "w"]}` (the sequence sits at level 1). -/
def hC10 : Heap := ⟨[.map [(js "a", .vref 1)], .arr [.vstr (js "x"), .vstr (js "w")]]⟩

/-- Heap for the root sequence `["x", "w"]` (level 0). -/
def hC10root : Heap := ⟨[.arr [.vstr (js "x"), .vstr (js "w")]]⟩

/-- C10: with `arrayIndent=false`, the sequence-render level
`arrayLevelOf` (the one `stringifyRef` dispatches sequences at) is
`L - 1` for `L > 0` and `L` at the root, exactly the claim's
`claimSeqLevel`; with `arrayIndent=true` it is `L` unchanged; no other
node kind consults the flag (on array-free heaps the two flag values
render identically); concretely, the level-1 sequence of `{a: [x, w]}`
loses one indentation level while the level-0 root sequence is
unchanged. -/
theorem claim_C10 (cfg : DumperState) (b1 b2 : Bool) (h : Heap)
    (hnoarr : ∀ o ∈ h.objs, ∃ fields, o = HeapObj.map fields) (L : Nat) :
    (arrayLevelOf false L = claimSeqLevel L) ∧
    (arrayLevelOf true L = L) ∧
    (∀ (fuel level : Nat) (v : YamlVal) (bl c k : Bool) (st : RState),
      stringifyNode { cfg with arrayIndent := b1 } h fuel level v bl c k st =
        stringifyNode { cfg with arrayIndent := b2 } h fuel level v bl c k st) ∧
    (DumperState.ofOptions {}).stringify hC10 10 (.vref 0) = .ok (js "a:\n  - x\n  - w\n") ∧
    (DumperState.ofOptions { arrayIndent := false }).stringify hC10 10 (.vref 0) =
      .ok (js "a:\n- x\n- w\n") ∧
    (DumperState.ofOptions {}).stringify hC10root 10 (.vref 0) = .ok (js "- x\n- w\n") ∧
    (DumperState.ofOptions { arrayIndent := false }).stringify hC10root 10 (.vref 0) =
      .ok (js "- x\n- w\n") := by
  refine ⟨?_, ?_, stringifyNode_arrayIndent_irrel cfg b1 b2 h hnoarr,
    by decide, by decide, by decide, by decide⟩
  · rw [arrayLevelOf, claimSeqLevel]
    simp
  · rw [arrayLevelOf]
    simp

/-- Witness for C10 on the empty (array-free) heap at level 3. -/
theorem claim_C10_witness :
    (∀ o ∈ (⟨[]⟩ : Heap).objs, ∃ fields, o = HeapObj.map fields) ∧
    arrayLevelOf false 3 = claimSeqLevel 3 ∧
    stringifyNode { DumperState.ofOptions {} with arrayIndent := true } ⟨[]⟩ 2 0
        (.vstr (js "x")) true true false ⟨[], []⟩ =
      stringifyNode { DumperState.ofOptions {} with arrayIndent := false } ⟨[]⟩ 2 0
        (.vstr (js "x")) true true false ⟨[], []⟩ := by
  have hno : ∀ o ∈ (⟨[]⟩ : Heap).objs, ∃ fields, o = HeapObj.map fields := by simp [Heap.objs]
  have hc := claim_C10 (DumperState.ofOptions {}) true false ⟨[]⟩ hno 3
  exact ⟨hno, hc.1, hc.2.2.1 2 0 (.vstr (js "x")) true true false ⟨[], []⟩⟩

/-! ### C5: skip-invalid drops single entries -/

/-- Under skip-invalid, a block-mapping pair whose value is an unsupported
leaf contributes nothing: the loop moves on with the accumulated text and
the render state untouched, so sibling pairs render exactly as they would
without the invalid pair. -/
theorem blockMapLoop_skip_invalid (cfg : DumperState) (h : Heap) (fuel : Nat)
    (pairs : List (JStr × YamlVal)) (tag : Option JStr) (level : Nat) (compact : Bool)
    (k : JStr) (keys : List JStr) (index : Nat) (acc : JStr) (st : RState) (kt : JStr)
    (hskip : cfg.skipInvalid = true)
    (hlookup : List.lookup k pairs = some .vother)
    (hkey : cfg.stringifyScalar k (level + 1) true = .ok kt) :
    blockMapLoop cfg.indent (fun l v b c kk s => stringifyNode cfg h (fuel + 1) l v b c kk s)
        pairs tag level compact (k :: keys) index acc st =
      blockMapLoop cfg.indent (fun l v b c kk s => stringifyNode cfg h (fuel + 1) l v b c kk s)
        pairs tag level compact keys (index + 1) acc st := by
  rw [blockMapLoop]
  dsimp only
  rw [stringifyNode_vstr, hkey]
  dsimp only
  rw [hlookup, Option.getD_some]
  rw [stringifyNode_vother, if_pos hskip]

/-- Under skip-invalid, a block-sequence element that is an unsupported
leaf contributes nothing and leaves the state untouched. -/
theorem blockSeqLoop_skip_invalid (cfg : DumperState) (h : Heap) (fuel : Nat)
    (level : Nat) (compact : Bool) (rest : List YamlVal) (index : Nat) (acc : JStr)
    (st : RState) (hskip : cfg.skipInvalid = true) :
    blockSeqLoop cfg.indent (fun l v b c kk s => stringifyNode cfg h (fuel + 1) l v b c kk s)
        level compact (.vother :: rest) index acc st =
      blockSeqLoop cfg.indent (fun l v b c kk s => stringifyNode cfg h (fuel + 1) l v b c kk s)
        level compact rest (index + 1) acc st := by
  rw [blockSeqLoop]
  rw [stringifyNode_vother, if_pos hskip]

/-- The mapping `{a: "x", b: <unsupported>, c: "w"}`. -/
def hSkipC5 : Heap :=
  ⟨[.map [(js "a", .vstr (js "x")), (js "b", .vother), (js "c", .vstr (js "w"))]]⟩

/-- The mapping `{a: "x", c: "w"}` — the same mapping without the invalid
pair. -/
def hTwoC5 : Heap := ⟨[.map [(js "a", .vstr (js "x")), (js "c", .vstr (js "w"))]]⟩

/-- C5: under `skipInvalid=true` a pair with an unsupported value (and
likewise an unsupported sequence element) is dropped from its parent with
the loop state untouched (conjuncts 1 and 2), so siblings render
unaffected; the three-pair mapping with one unsupported value dumps to
exactly the two-pair output, equal to dumping the two-pair mapping
(conjuncts 3 and 4); with `skipInvalid=false` the same input raises the
fatal unsupported-value error (conjunct 5). -/
theorem claim_C5 (cfg : DumperState) (h : Heap) (fuel : Nat)
    (pairs : List (JStr × YamlVal)) (tag : Option JStr) (level : Nat) (compact : Bool)
    (k : JStr) (keys : List JStr) (index : Nat) (acc : JStr) (st : RState) (kt : JStr)
    (rest : List YamlVal)
    (hskip : cfg.skipInvalid = true)
    (hlookup : List.lookup k pairs = some .vother)
    (hkey : cfg.stringifyScalar k (level + 1) true = .ok kt) :
    (blockMapLoop cfg.indent (fun l v b c kk s => stringifyNode cfg h (fuel + 1) l v b c kk s)
        pairs tag level compact (k :: keys) index acc st =
      blockMapLoop cfg.indent (fun l v b c kk s => stringifyNode cfg h (fuel + 1) l v b c kk s)
        pairs tag level compact keys (index + 1) acc st) ∧
    (blockSeqLoop cfg.indent (fun l v b c kk s => stringifyNode cfg h (fuel + 1) l v b c kk s)
        level compact (.vother :: rest) index acc st =
      blockSeqLoop cfg.indent (fun l v b c kk s => stringifyNode cfg h (fuel + 1) l v b c kk s)
        level compact rest (index + 1) acc st) ∧
    (DumperState.ofOptions { skipInvalid := true }).stringify hSkipC5 10 (.vref 0) =
      .ok (js "a: x\nc: w\n") ∧
    (DumperState.ofOptions {}).stringify hTwoC5 10 (.vref 0) = .ok (js "a: x\nc: w\n") ∧
    (DumperState.ofOptions {}).stringify hSkipC5 10 (.vref 0) =
      .error (.typeError "unacceptable kind of an object to dump") :=
  ⟨blockMapLoop_skip_invalid cfg h fuel pairs tag level compact k keys index acc st kt
      hskip hlookup hkey,
   blockSeqLoop_skip_invalid cfg h fuel level compact rest index acc st hskip,
   by decide, by decide, by decide⟩

/-- Witness for C5 dropping the pair `b: <unsupported>` at the head of the
key list. -/
theorem claim_C5_witness :
    blockMapLoop 2 (fun l v b c kk s =>
        stringifyNode (DumperState.ofOptions { skipInvalid := true }) hSkipC5 3 l v b c kk s)
      [(js "b", .vother)] none 0 false [js "b"] 0 [] ⟨[], []⟩ =
    blockMapLoop 2 (fun l v b c kk s =>
        stringifyNode (DumperState.ofOptions { skipInvalid := true }) hSkipC5 3 l v b c kk s)
      [(js "b", .vother)] none 0 false [] 1 [] ⟨[], []⟩ :=
  (claim_C5 (DumperState.ofOptions { skipInvalid := true }) hSkipC5 2 [(js "b", .vother)]
    none 0 false (js "b") [] 0 [] ⟨[], []⟩ (js "b") [] (by decide) (by decide) (by decide)).1

/-! ### C1: anchors precede aliases

The ghost trace records `anchor i` exactly when `usedDuplicates` gains
`i` (the moment the `&ref_N` marker is attached to the node's text) and
`alias i` exactly when `*ref_N` is returned, in emission order.  The
invariant below says the trace is well-formed: a node's anchor is emitted
at most once, and every alias of a node comes strictly after its anchor. -/

/-- Every alias event is preceded by the same node's anchor event. -/
abbrev AliasesAnchored (evs : List AnchorEvent) : Prop :=
  ∀ (p i : Nat), evs[p]? = some (AnchorEvent.alias i) →
    ∃ q : Nat, q < p ∧ evs[q]? = some (AnchorEvent.anchor i)

/-- A node's anchor is emitted at most once. -/
abbrev AnchorsUnique (evs : List AnchorEvent) : Prop :=
  ∀ (p q i : Nat), evs[p]? = some (AnchorEvent.anchor i) →
    evs[q]? = some (AnchorEvent.anchor i) → p = q

/-- The render-state invariant: the used set is exactly the set of
anchored nodes, aliases follow anchors, anchors are unique. -/
abbrev TraceInv (st : RState) : Prop :=
  (∀ i, i ∈ st.used ↔ AnchorEvent.anchor i ∈ st.events) ∧
  AliasesAnchored st.events ∧ AnchorsUnique st.events

/-- The used set stays inside the duplicate registry and lists each node
once. -/
abbrev UsedInv (cfg : DumperState) (st : RState) : Prop :=
  (∀ j ∈ st.used, j ∈ cfg.duplicates) ∧ st.used.Nodup

/-- What one render step does to the state: it only appends events and
only grows the used set. -/
abbrev RStep (st st' : RState) : Prop :=
  (∃ tail, st'.events = st.events ++ tail) ∧ (∀ j, j ∈ st.used → j ∈ st'.used)

theorem rstep_refl (st : RState) : RStep st st := ⟨⟨[], by simp⟩, fun _ hj => hj⟩

theorem rstep_trans {st1 st2 st3 : RState} (h1 : RStep st1 st2) (h2 : RStep st2 st3) :
    RStep st1 st3 := by
  obtain ⟨⟨t1, he1⟩, hu1⟩ := h1
  obtain ⟨⟨t2, he2⟩, hu2⟩ := h2
  exact ⟨⟨t1 ++ t2, by rw [he2, he1, List.append_assoc]⟩, fun j hj => hu2 j (hu1 j hj)⟩

theorem jsIndexOfAux_ne_neg_one : ∀ (l : List Nat) (a k : Nat),
    jsIndexOfAux l a k ≠ -1 ↔ a ∈ l := by
  intro l
  induction l with
  | nil => intro a k; simp [jsIndexOfAux]
  | cons x rest ih =>
    intro a k
    rw [jsIndexOfAux]
    by_cases hx : x = a
    · rw [if_pos hx]
      subst hx
      simp
    · rw [if_neg hx]
      rw [ih a (k + 1)]
      simp [List.mem_cons, hx]
      intro hax
      exact absurd hax.symm hx

/-- `indexOf` is `-1` exactly for absent elements. -/
theorem jsIndexOf_ne_neg_one (l : List Nat) (a : Nat) : jsIndexOf l a ≠ -1 ↔ a ∈ l :=
  jsIndexOfAux_ne_neg_one l a 0

theorem getElemQ_append_lt {α : Type} (l₁ l₂ : List α) (n : Nat) (h : n < l₁.length) :
    (l₁ ++ l₂)[n]? = l₁[n]? := by
  rw [List.getElem?_append]
  exact if_pos h

theorem getElemQ_append_len {α : Type} (l₁ : List α) (a : α) :
    (l₁ ++ [a])[l₁.length]? = some a := by
  rw [List.getElem?_append, if_neg (lt_irrefl _)]
  simp

theorem getElemQ_snoc_cases {α : Type} (l₁ : List α) (a x : α) (p : Nat)
    (h : (l₁ ++ [a])[p]? = some x) :
    (p < l₁.length ∧ l₁[p]? = some x) ∨ (p = l₁.length ∧ x = a) := by
  by_cases hlt : p < l₁.length
  · left
    exact ⟨hlt, by rw [← getElemQ_append_lt l₁ [a] p hlt]; exact h⟩
  · right
    have hle : p = l₁.length := by
      by_contra hne
      have hgt : l₁.length + 1 ≤ p := by omega
      rw [List.getElem?_eq_none (by simp; omega)] at h
      exact Option.noConfusion h
    subst hle
    rw [getElemQ_append_len] at h
    exact ⟨rfl, (Option.some.injEq _ _ ▸ h).symm⟩

/-- Appending an alias of an already-anchored node preserves the trace
invariant. -/
theorem traceInv_alias (st : RState) (i : Nat) (hT : TraceInv st)
    (hmem : AnchorEvent.anchor i ∈ st.events) : TraceInv (pushEvent st (.alias i)) := by
  obtain ⟨hiff, hal, hun⟩ := hT
  obtain ⟨q0, hq0⟩ := List.mem_iff_getElem?.mp hmem
  have hq0lt : q0 < st.events.length := by
    by_contra hge
    rw [List.getElem?_eq_none (by omega)] at hq0
    exact Option.noConfusion hq0
  refine ⟨?_, ?_, ?_⟩
  · intro j
    rw [pushEvent]
    simpa using hiff j
  · intro p j hp
    rw [pushEvent] at hp ⊢
    dsimp only at hp ⊢
    rcases getElemQ_snoc_cases st.events (AnchorEvent.alias i) (AnchorEvent.alias j) p hp
      with ⟨hplt, hp'⟩ | ⟨hpe, hx⟩
    · obtain ⟨q, hqlt, hq⟩ := hal p j hp'
      exact ⟨q, hqlt, by rw [getElemQ_append_lt _ _ q (by omega)]; exact hq⟩
    · have hij : j = i := by
        cases hx
        rfl
      subst hij hpe
      exact ⟨q0, by omega, by rw [getElemQ_append_lt _ _ q0 hq0lt]; exact hq0⟩
  · intro p q j hp hq
    rw [pushEvent] at hp hq
    dsimp only at hp hq
    rcases getElemQ_snoc_cases st.events (AnchorEvent.alias i) (AnchorEvent.anchor j) p hp
      with ⟨hplt, hp'⟩ | ⟨_, hx⟩
    · rcases getElemQ_snoc_cases st.events (AnchorEvent.alias i) (AnchorEvent.anchor j) q hq
        with ⟨hqlt, hq'⟩ | ⟨_, hx⟩
      · exact hun p q j hp' hq'
      · exact absurd hx (by simp)
    · exact absurd hx (by simp)

/-- Marking an unused node used while appending its anchor preserves the
trace invariant. -/
theorem traceInv_anchor (st : RState) (i : Nat) (hT : TraceInv st)
    (hnot : i ∉ st.used) :
    TraceInv (pushEvent { st with used := st.used ++ [i] } (.anchor i)) := by
  obtain ⟨hiff, hal, hun⟩ := hT
  have hnomem : AnchorEvent.anchor i ∉ st.events := fun hm => hnot ((hiff i).mpr hm)
  refine ⟨?_, ?_, ?_⟩
  · intro j
    rw [pushEvent]
    dsimp only
    by_cases hij : j = i
    · subst hij
      simp
    · simp only [List.mem_append, List.mem_singleton]
      constructor
      · intro hj
        rcases hj with hj | hj
        · exact Or.inl ((hiff j).mp hj)
        · exact absurd hj hij
      · intro hj
        rcases hj with hj | hj
        · exact Or.inl ((hiff j).mpr hj)
        · exact absurd (by injection hj) hij
  · intro p j hp
    rw [pushEvent] at hp ⊢
    dsimp only at hp ⊢
    rcases getElemQ_snoc_cases st.events (AnchorEvent.anchor i) (AnchorEvent.alias j) p hp
      with ⟨hplt, hp'⟩ | ⟨_, hx⟩
    · obtain ⟨q, hqlt, hq⟩ := hal p j hp'
      exact ⟨q, hqlt, by rw [getElemQ_append_lt _ _ q (by omega)]; exact hq⟩
    · exact absurd hx (by simp)
  · intro p q j hp hq
    rw [pushEvent] at hp hq
    dsimp only at hp hq
    rcases getElemQ_snoc_cases st.events (AnchorEvent.anchor i) (AnchorEvent.anchor j) p hp
      with ⟨hplt, hp'⟩ | ⟨hpe, hx⟩
    · rcases getElemQ_snoc_cases st.events (AnchorEvent.anchor i) (AnchorEvent.anchor j) q hq
        with ⟨hqlt, hq'⟩ | ⟨hqe, hy⟩
      · exact hun p q j hp' hq'
      · have : j = i := by injection hy
        subst this
        exact absurd (List.mem_iff_getElem?.mpr ⟨p, hp'⟩) hnomem
    · have : j = i := by injection hx
      subst this
      rcases getElemQ_snoc_cases st.events (AnchorEvent.anchor j) (AnchorEvent.anchor j) q hq
        with ⟨hqlt, hq'⟩ | ⟨hqe, _⟩
      · exact absurd (List.mem_iff_getElem?.mpr ⟨q, hq'⟩) hnomem
      · omega

/-- The full render invariant: well-formed trace, used set inside the
registry and duplicate-free. -/
abbrev RInv (cfg : DumperState) (st : RState) : Prop := TraceInv st ∧ UsedInv cfg st

/-- One render step starting from an invariant state lands in an invariant
state and only extends the trace and the used set. -/
abbrev Preserves (cfg : DumperState) (st st' : RState) : Prop :=
  RInv cfg st → RInv cfg st' ∧ RStep st st'

theorem preserves_refl (cfg : DumperState) (st : RState) : Preserves cfg st st :=
  fun hi => ⟨hi, rstep_refl st⟩

theorem preserves_trans (cfg : DumperState) {a b c : RState}
    (h1 : Preserves cfg a b) (h2 : Preserves cfg b c) : Preserves cfg a c := by
  intro ha
  obtain ⟨hb, hs1⟩ := h1 ha
  obtain ⟨hc, hs2⟩ := h2 hb
  exact ⟨hc, rstep_trans hs1 hs2⟩

/-- A child serializer respects the state relation `Q` on success. -/
abbrev ChildQ (Q : RState → RState → Prop) (child : Child) : Prop :=
  ∀ (l : Nat) (v : YamlVal) (b c k : Bool) (st : RState) (r : Option JStr) (st' : RState),
    child l v b c k st = .ok (r, st') → Q st st'

theorem flowSeqLoop_Q (Q : RState → RState → Prop)
    (hrefl : ∀ s, Q s s) (htrans : ∀ {a b c : RState}, Q a b → Q b c → Q a c)
    (cf : Bool) (child : Child) (level : Nat) (hchild : ChildQ Q child) :
    ∀ (elems : List YamlVal) (index : Nat) (result : JStr) (st : RState)
      (r : JStr) (st' : RState),
      flowSeqLoop cf child level elems index result st = .ok (r, st') → Q st st' := by
  intro elems
  induction elems with
  | nil =>
    intro index result st r st' hok
    rw [flowSeqLoop] at hok
    cases hok
    exact hrefl st
  | cons v rest ih =>
    intro index result st r st' hok
    rw [flowSeqLoop] at hok
    split at hok
    · exact Except.noConfusion hok
    · rename_i st1 heq
      exact htrans (hchild _ _ _ _ _ _ _ _ heq) (ih _ _ _ _ _ hok)
    · rename_i s st1 heq
      exact htrans (hchild _ _ _ _ _ _ _ _ heq) (ih _ _ _ _ _ hok)

theorem blockSeqLoop_Q (Q : RState → RState → Prop)
    (hrefl : ∀ s, Q s s) (htrans : ∀ {a b c : RState}, Q a b → Q b c → Q a c)
    (indent : Int) (child : Child) (level : Nat) (compact : Bool) (hchild : ChildQ Q child) :
    ∀ (elems : List YamlVal) (index : Nat) (result : JStr) (st : RState)
      (r : JStr) (st' : RState),
      blockSeqLoop indent child level compact elems index result st = .ok (r, st') →
        Q st st' := by
  intro elems
  induction elems with
  | nil =>
    intro index result st r st' hok
    rw [blockSeqLoop] at hok
    cases hok
    exact hrefl st
  | cons v rest ih =>
    intro index result st r st' hok
    rw [blockSeqLoop] at hok
    split at hok
    · exact Except.noConfusion hok
    · rename_i st1 heq
      exact htrans (hchild _ _ _ _ _ _ _ _ heq) (ih _ _ _ _ _ hok)
    · rename_i s st1 heq
      exact htrans (hchild _ _ _ _ _ _ _ _ heq) (ih _ _ _ _ _ hok)

theorem flowMapLoop_Q (Q : RState → RState → Prop)
    (hrefl : ∀ s, Q s s) (htrans : ∀ {a b c : RState}, Q a b → Q b c → Q a c)
    (cf : Bool) (child : Child) (level : Nat) (hchild : ChildQ Q child) :
    ∀ (pairs : List (JStr × YamlVal)) (index : Nat) (result : JStr) (st : RState)
      (r : JStr) (st' : RState),
      flowMapLoop cf child level pairs index result st = .ok (r, st') → Q st st' := by
  intro pairs
  induction pairs with
  | nil =>
    intro index result st r st' hok
    rw [flowMapLoop] at hok
    cases hok
    exact hrefl st
  | cons p rest ih =>
    obtain ⟨objectKey, objectValue⟩ := p
    intro index result st r st' hok
    rw [flowMapLoop] at hok
    split at hok
    · exact Except.noConfusion hok
    · rename_i st1 heq
      exact htrans (hchild _ _ _ _ _ _ _ _ heq) (ih _ _ _ _ _ hok)
    · rename_i keyString st1 heq
      dsimp only at hok
      split at hok
      · exact Except.noConfusion hok
      · rename_i st2 heq2
        exact htrans (hchild _ _ _ _ _ _ _ _ heq)
          (htrans (hchild _ _ _ _ _ _ _ _ heq2) (ih _ _ _ _ _ hok))
      · rename_i valueString st2 heq2
        exact htrans (hchild _ _ _ _ _ _ _ _ heq)
          (htrans (hchild _ _ _ _ _ _ _ _ heq2) (ih _ _ _ _ _ hok))

theorem blockMapLoop_Q (Q : RState → RState → Prop)
    (hrefl : ∀ s, Q s s) (htrans : ∀ {a b c : RState}, Q a b → Q b c → Q a c)
    (indent : Int) (child : Child) (pairs : List (JStr × YamlVal)) (tag : Option JStr)
    (level : Nat) (compact : Bool) (hchild : ChildQ Q child) :
    ∀ (keys : List JStr) (index : Nat) (result : JStr) (st : RState)
      (r : JStr) (st' : RState),
      blockMapLoop indent child pairs tag level compact keys index result st = .ok (r, st') →
        Q st st' := by
  intro keys
  induction keys with
  | nil =>
    intro index result st r st' hok
    rw [blockMapLoop] at hok
    cases hok
    exact hrefl st
  | cons objectKey rest ih =>
    intro index result st r st' hok
    rw [blockMapLoop] at hok
    split at hok
    · exact Except.noConfusion hok
    · rename_i st1 heq
      exact htrans (hchild _ _ _ _ _ _ _ _ heq) (ih _ _ _ _ _ hok)
    · rename_i keyString st1 heq
      dsimp only at hok
      split at hok
      · exact Except.noConfusion hok
      · rename_i st2 heq2
        exact htrans (hchild _ _ _ _ _ _ _ _ heq)
          (htrans (hchild _ _ _ _ _ _ _ _ heq2) (ih _ _ _ _ _ hok))
      · rename_i valueString st2 heq2
        exact htrans (hchild _ _ _ _ _ _ _ _ heq)
          (htrans (hchild _ _ _ _ _ _ _ _ heq2) (ih _ _ _ _ _ hok))

theorem stringifyFlowSequence_Q (Q : RState → RState → Prop)
    (hrefl : ∀ s, Q s s) (htrans : ∀ {a b c : RState}, Q a b → Q b c → Q a c)
    (cf : Bool) (child : Child) (hchild : ChildQ Q child)
    (elems : List YamlVal) (level : Nat) (st : RState) (r : JStr) (st' : RState)
    (hok : stringifyFlowSequence cf child elems level st = .ok (r, st')) : Q st st' := by
  rw [stringifyFlowSequence] at hok
  split at hok
  · exact Except.noConfusion hok
  · rename_i result1 st1 heq
    cases hok
    exact flowSeqLoop_Q Q hrefl htrans cf child level hchild elems 0 [] st _ _ heq

theorem stringifyBlockSequence_Q (Q : RState → RState → Prop)
    (hrefl : ∀ s, Q s s) (htrans : ∀ {a b c : RState}, Q a b → Q b c → Q a c)
    (indent : Int) (child : Child) (hchild : ChildQ Q child)
    (elems : List YamlVal) (level : Nat) (compact : Bool) (st : RState) (r : JStr)
    (st' : RState)
    (hok : stringifyBlockSequence indent child elems level compact st = .ok (r, st')) :
    Q st st' := by
  rw [stringifyBlockSequence] at hok
  split at hok
  · exact Except.noConfusion hok
  · rename_i result1 st1 heq
    cases hok
    exact blockSeqLoop_Q Q hrefl htrans indent child level compact hchild elems 0 [] st _ _ heq

theorem stringifyFlowMapping_Q (Q : RState → RState → Prop)
    (hrefl : ∀ s, Q s s) (htrans : ∀ {a b c : RState}, Q a b → Q b c → Q a c)
    (cf : Bool) (child : Child) (hchild : ChildQ Q child)
    (fields : List (JStr × YamlVal)) (level : Nat) (st : RState) (r : JStr) (st' : RState)
    (hok : stringifyFlowMapping cf child fields level st = .ok (r, st')) : Q st st' := by
  rw [stringifyFlowMapping] at hok
  split at hok
  · exact Except.noConfusion hok
  · rename_i result1 st1 heq
    cases hok
    exact flowMapLoop_Q Q hrefl htrans cf child level hchild fields 0 [] st _ _ heq

theorem stringifyBlockMapping_Q (Q : RState → RState → Prop)
    (hrefl : ∀ s, Q s s) (htrans : ∀ {a b c : RState}, Q a b → Q b c → Q a c)
    (cfg : DumperState) (child : Child) (hchild : ChildQ Q child)
    (fields : List (JStr × YamlVal)) (tag : Option JStr) (level : Nat) (compact : Bool)
    (st : RState) (r : JStr) (st' : RState)
    (hok : stringifyBlockMapping cfg child fields tag level compact st = .ok (r, st')) :
    Q st st' := by
  rw [stringifyBlockMapping] at hok
  split at hok
  · exact Except.noConfusion hok
  · rename_i result1 st1 heq
    cases hok
    exact blockMapLoop_Q Q hrefl htrans cfg.indent child fields tag level compact hchild
      _ 0 [] st _ _ heq

theorem stringifyRef_Q (Q : RState → RState → Prop)
    (hrefl : ∀ s, Q s s) (htrans : ∀ {a b c : RState}, Q a b → Q b c → Q a c)
    (cfg : DumperState) (h : Heap) (child : Child) (level : Nat) (i : Nat)
    (b0 c0 : Bool) (st : RState) (r : Option JStr) (st' : RState)
    (hchild : ChildQ Q child)
    (halias : jsIndexOf cfg.duplicates i ≠ -1 → i ∈ st.used →
        Q st (pushEvent st (.alias i)))
    (hanchor : jsIndexOf cfg.duplicates i ≠ -1 → i ∉ st.used →
        Q st (pushEvent { st with used := st.used ++ [i] } (.anchor i)))
    (hok : stringifyRef cfg h child level i b0 c0 st = .ok (r, st')) : Q st st' := by
  rw [stringifyRef] at hok
  dsimp only at hok
  by_cases hcond : jsIndexOf cfg.duplicates i ≠ -1 ∧ i ∈ st.used
  · rw [if_pos hcond] at hok
    cases hok
    exact halias hcond.1 hcond.2
  · rw [if_neg hcond] at hok
    have hq1 : Q st (if jsIndexOf cfg.duplicates i ≠ -1 then
        pushEvent { st with used := st.used ++ [i] } (AnchorEvent.anchor i) else st) := by
      by_cases hdup : jsIndexOf cfg.duplicates i ≠ -1
      · rw [if_pos hdup]
        exact hanchor hdup (fun hm => hcond ⟨hdup, hm⟩)
      · rw [if_neg hdup]
        exact hrefl st
    refine htrans hq1 ?_
    generalize (if jsIndexOf cfg.duplicates i ≠ -1 then
        pushEvent { st with used := st.used ++ [i] } (AnchorEvent.anchor i) else st) = st1
      at hok hq1 ⊢
    cases hobj : Heap.obj h i with
    | map fields =>
      rw [hobj] at hok
      dsimp only at hok
      split at hok
      · split at hok
        · exact Except.noConfusion hok
        · rename_i body st2 heq
          cases hok
          exact stringifyBlockMapping_Q Q hrefl htrans cfg child hchild fields none level _
            st1 _ _ heq
      · split at hok
        · exact Except.noConfusion hok
        · rename_i body st2 heq
          cases hok
          exact stringifyFlowMapping_Q Q hrefl htrans cfg.condenseFlow child hchild fields
            level st1 _ _ heq
    | arr elems =>
      rw [hobj] at hok
      dsimp only at hok
      split at hok
      · split at hok
        · exact Except.noConfusion hok
        · rename_i body st2 heq
          cases hok
          exact stringifyBlockSequence_Q Q hrefl htrans cfg.indent child hchild elems _ _
            st1 _ _ heq
      · split at hok
        · exact Except.noConfusion hok
        · rename_i body st2 heq
          cases hok
          exact stringifyFlowSequence_Q Q hrefl htrans cfg.condenseFlow child hchild elems _
            st1 _ _ heq

/-- The serializer respects any reflexive transitive state relation that
tolerates the two bookkeeping pushes. -/
theorem stringifyNode_Q (Q : RState → RState → Prop)
    (hrefl : ∀ s, Q s s) (htrans : ∀ {a b c : RState}, Q a b → Q b c → Q a c)
    (cfg : DumperState) (h : Heap)
    (halias : ∀ (st : RState) (i : Nat), jsIndexOf cfg.duplicates i ≠ -1 → i ∈ st.used →
        Q st (pushEvent st (.alias i)))
    (hanchor : ∀ (st : RState) (i : Nat), jsIndexOf cfg.duplicates i ≠ -1 → i ∉ st.used →
        Q st (pushEvent { st with used := st.used ++ [i] } (.anchor i))) :
    ∀ (fuel level : Nat) (v : YamlVal) (b c k : Bool) (st : RState) (r : Option JStr)
      (st' : RState), stringifyNode cfg h fuel level v b c k st = .ok (r, st') →
      Q st st' := by
  intro fuel
  induction fuel with
  | zero =>
    intro level v b c k st r st' hok
    exact Except.noConfusion hok
  | succ fuel ih =>
    intro level v b c k st r st' hok
    cases v with
    | vref i =>
      rw [stringifyNode_vref] at hok
      exact stringifyRef_Q Q hrefl htrans cfg h _ level i b c st r st'
        (fun l v bb cc kk s rr s' hc => ih l v bb cc kk s rr s' hc)
        (halias st i) (hanchor st i) hok
    | vstr s =>
      rw [stringifyNode_vstr] at hok
      split at hok
      · exact Except.noConfusion hok
      · cases hok
        exact hrefl st
    | vother =>
      rw [stringifyNode_vother] at hok
      split at hok
      · cases hok
        exact hrefl st
      · exact Except.noConfusion hok

/-- The initial render state satisfies the trace invariant. -/
theorem traceInv_init : TraceInv ⟨[], []⟩ := by
  refine ⟨?_, ?_, ?_⟩
  · intro i
    simp
  · intro p i hp
    simp at hp
  · intro p q i hp hq
    simp at hp

/-- Every successful serializer run preserves the render invariant and only
extends the trace and used set. -/
theorem stringifyNode_pres (cfg : DumperState) (h : Heap) (fuel level : Nat)
    (v : YamlVal) (b c k : Bool) (st : RState) (r : Option JStr) (st' : RState)
    (hok : stringifyNode cfg h fuel level v b c k st = .ok (r, st')) :
    Preserves cfg st st' := by
  refine stringifyNode_Q (Preserves cfg) (preserves_refl cfg)
    (fun h1 h2 => preserves_trans cfg h1 h2) cfg h ?_ ?_ fuel level v b c k st r st' hok
  · intro st i _ hm hinv
    obtain ⟨hT, hU⟩ := hinv
    refine ⟨⟨traceInv_alias st i hT ((hT.1 i).mp hm), hU⟩, ⟨[.alias i], rfl⟩, fun j hj => hj⟩
  · intro st i hd hnu hinv
    obtain ⟨hT, hU⟩ := hinv
    have hdmem : i ∈ cfg.duplicates := (jsIndexOf_ne_neg_one cfg.duplicates i).mp hd
    refine ⟨⟨traceInv_anchor st i hT hnu, ?_, ?_⟩, ⟨[.anchor i], rfl⟩, ?_⟩
    · intro j hj
      rcases List.mem_append.mp hj with hj | hj
      · exact hU.1 j hj
      · rw [List.mem_singleton.mp hj]
        exact hdmem
    · exact List.Nodup.append hU.2 (List.nodup_singleton i)
        (List.disjoint_singleton.mpr hnu)
    · intro j hj
      exact List.mem_append.mpr (Or.inl hj)

/-- With an empty duplicate registry the serializer never touches the
render state: no anchors, no aliases, no used marks. -/
theorem stringifyNode_untouched (cfg : DumperState) (h : Heap)
    (hnod : cfg.duplicates = []) (fuel level : Nat) (v : YamlVal) (b c k : Bool)
    (st : RState) (r : Option JStr) (st' : RState)
    (hok : stringifyNode cfg h fuel level v b c k st = .ok (r, st')) : st = st' := by
  refine stringifyNode_Q (fun a b => a = b) (fun _ => rfl) (fun h1 h2 => h1.trans h2)
    cfg h ?_ ?_ fuel level v b c k st r st' hok
  · intro st i hd _
    exact absurd (show jsIndexOf cfg.duplicates i = -1 by rw [hnod]; rfl) hd
  · intro st i hd _
    exact absurd (show jsIndexOf cfg.duplicates i = -1 by rw [hnod]; rfl) hd

/-- Two maps `x` and `z` sharing one identity `S = {s: "v"}` (node 1). -/
def hSharedC1 : Heap :=
  ⟨[.map [(js "x", .vref 1), (js "z", .vref 1)], .map [(js "s", .vstr (js "v"))]]⟩

/-- The configuration `stringify` builds for `hSharedC1` under the default
options: the pre-scan registers node 1 as the only duplicate. -/
def cfgC1 : DumperState := { DumperState.ofOptions {} with duplicates := [1] }

/-- C1: in any successful render from the fresh state (exactly how
`stringify` invokes `stringifyNode`), every `*ref` alias event in the
emission-ordered ghost trace concerns a registry node and is strictly
preceded by that node's `&ref` anchor event, and anchors are unique
(conjuncts 1–2); with an empty duplicate registry — what `useAnchors=false`
yields, since the pre-scan is skipped and the default registry is empty —
the render state is never touched, so no anchor or alias is ever emitted
(conjunct 3); concretely, the shared-identity tree `{x: S, z: S}` dumps to
an anchored first occurrence and an aliased second one by default, and to
the full content twice under `useAnchors=false` (conjuncts 4–5). -/
theorem claim_C1 (cfg : DumperState) (h : Heap) (fuel : Nat) (data : YamlVal)
    (r : Option JStr) (stF : RState)
    (hrun : stringifyNode cfg h fuel 0 data true true false ⟨[], []⟩ = .ok (r, stF))
    (cfg0 : DumperState) (h0 : Heap) (fuel0 level0 : Nat) (v0 : YamlVal)
    (b0 c0 k0 : Bool) (st0 st0' : RState) (r0 : Option JStr)
    (hnod : cfg0.duplicates = [])
    (hrun0 : stringifyNode cfg0 h0 fuel0 level0 v0 b0 c0 k0 st0 = .ok (r0, st0')) :
    (∀ (p i : Nat), stF.events[p]? = some (AnchorEvent.alias i) →
        i ∈ cfg.duplicates ∧
        ∃ q : Nat, q < p ∧ stF.events[q]? = some (AnchorEvent.anchor i)) ∧
    AnchorsUnique stF.events ∧
    st0' = st0 ∧
    (DumperState.ofOptions {}).stringify hSharedC1 10 (.vref 0) =
      .ok (js "x: &ref_0\n  s: v\nz: *ref_0\n") ∧
    (DumperState.ofOptions { useAnchors := false }).stringify hSharedC1 10 (.vref 0) =
      .ok (js "x:\n  s: v\nz:\n  s: v\n") := by
  have hinv0 : RInv cfg ⟨[], []⟩ :=
    ⟨traceInv_init, fun j hj => absurd hj (List.not_mem_nil j), List.nodup_nil⟩
  obtain ⟨⟨hT, hU⟩, _⟩ :=
    stringifyNode_pres cfg h fuel 0 data true true false ⟨[], []⟩ r stF hrun hinv0
  refine ⟨?_, hT.2.2, ?_, by decide, by decide⟩
  · intro p i hp
    obtain ⟨q, hq, hanch⟩ := hT.2.1 p i hp
    have hmem : AnchorEvent.anchor i ∈ stF.events := List.mem_iff_getElem?.mpr ⟨q, hanch⟩
    exact ⟨hU.1 i ((hT.1 i).mpr hmem), q, hq, hanch⟩
  · exact (stringifyNode_untouched cfg0 h0 hnod fuel0 level0 v0 b0 c0 k0 st0 r0 st0'
      hrun0).symm

/-- Witness for C1 on the shared-identity tree: the default render emits
the trace `[anchor 1, alias 1]` and the registry-free render leaves the
state empty. -/
theorem claim_C1_witness :
    (∀ (p i : Nat),
        (RState.mk [1] [.anchor 1, .alias 1]).events[p]? = some (AnchorEvent.alias i) →
        i ∈ cfgC1.duplicates ∧
        ∃ q : Nat, q < p ∧
          (RState.mk [1] [.anchor 1, .alias 1]).events[q]? = some (AnchorEvent.anchor i)) ∧
    AnchorsUnique (RState.mk [1] [.anchor 1, .alias 1]).events ∧
    (⟨[], []⟩ : RState) = ⟨[], []⟩ ∧
    (DumperState.ofOptions {}).stringify hSharedC1 10 (.vref 0) =
      .ok (js "x: &ref_0\n  s: v\nz: *ref_0\n") ∧
    (DumperState.ofOptions { useAnchors := false }).stringify hSharedC1 10 (.vref 0) =
      .ok (js "x:\n  s: v\nz:\n  s: v\n") :=
  claim_C1 cfgC1 hSharedC1 10 (.vref 0)
    (some (js "x: &ref_0\n  s: v\nz: *ref_0")) ⟨[1], [.anchor 1, .alias 1]⟩ (by decide)
    (DumperState.ofOptions { useAnchors := false }) hSharedC1 10 0 (.vref 0) true true false
    ⟨[], []⟩ ⟨[], []⟩ (some (js "x:\n  s: v\nz:\n  s: v")) (by decide) (by decide)

/-! ### C3: cycle termination — list position and counting helpers -/

/-- Index of the first occurrence (length when absent). -/
def posIn : List Nat → Nat → Nat
  | [], _ => 0
  | x :: rest, a => if x = a then 0 else posIn rest a + 1

theorem posIn_lt_length : ∀ {l : List Nat} {a : Nat}, a ∈ l → posIn l a < l.length := by
  intro l
  induction l with
  | nil => intro a ha; exact absurd ha (List.not_mem_nil a)
  | cons x rest ih =>
    intro a ha
    rw [posIn]
    by_cases hx : x = a
    · rw [if_pos hx]
      simp
    · rw [if_neg hx]
      have : a ∈ rest := by
        rcases List.mem_cons.mp ha with hh | hh
        · exact absurd hh.symm hx
        · exact hh
      have := ih this
      simp only [List.length_cons]
      omega

theorem posIn_append_left : ∀ {l₁ : List Nat} (l₂ : List Nat) {a : Nat}, a ∈ l₁ →
    posIn (l₁ ++ l₂) a = posIn l₁ a := by
  intro l₁
  induction l₁ with
  | nil => intro l₂ a ha; exact absurd ha (List.not_mem_nil a)
  | cons x rest ih =>
    intro l₂ a ha
    rw [List.cons_append, posIn, posIn]
    by_cases hx : x = a
    · rw [if_pos hx, if_pos hx]
    · rw [if_neg hx, if_neg hx]
      have : a ∈ rest := by
        rcases List.mem_cons.mp ha with hh | hh
        · exact absurd hh.symm hx
        · exact hh
      rw [ih l₂ this]

theorem posIn_append_not_mem : ∀ {l₁ : List Nat} {a : Nat}, a ∉ l₁ → ∀ (l₂ : List Nat),
    posIn (l₁ ++ a :: l₂) a = l₁.length := by
  intro l₁
  induction l₁ with
  | nil =>
    intro a _ l₂
    rw [List.nil_append, posIn, if_pos rfl]
    rfl
  | cons x rest ih =>
    intro a ha l₂
    rw [List.cons_append, posIn]
    have hx : x ≠ a := fun hh => ha (hh ▸ List.mem_cons_self x rest)
    rw [if_neg hx, ih (fun hh => ha (List.mem_cons_of_mem x hh)) l₂]
    rfl

theorem filterLenMono (p q : Nat → Bool) : ∀ (l : List Nat),
    (∀ x ∈ l, p x = true → q x = true) → (l.filter p).length ≤ (l.filter q).length := by
  intro l
  induction l with
  | nil => intro hx; simp
  | cons a l ih =>
    intro himp
    have hrest := ih (fun x hx hp => himp x (List.mem_cons_of_mem a hx) hp)
    cases hpa : p a with
    | true =>
      have hqa : q a = true := himp a (List.mem_cons_self a l) hpa
      simp only [List.filter_cons, hpa, hqa, if_true, List.length_cons]
      omega
    | false =>
      cases hqa : q a with
      | true =>
        simp only [List.filter_cons, hpa, hqa, if_true, if_false, List.length_cons,
          Bool.false_eq_true]
        omega
      | false =>
        simp only [List.filter_cons, hpa, hqa, if_false, Bool.false_eq_true]
        exact hrest

theorem filterLenLt (p q : Nat → Bool) : ∀ (l : List Nat),
    (∀ x ∈ l, p x = true → q x = true) → ∀ i, i ∈ l → q i = true → p i = false →
    (l.filter p).length < (l.filter q).length := by
  intro l
  induction l with
  | nil => intro hx i hi; exact absurd hi (List.not_mem_nil i)
  | cons a l ih =>
    intro himp i hi hqi hpi
    have himpr : ∀ x ∈ l, p x = true → q x = true :=
      fun x hx hp => himp x (List.mem_cons_of_mem a hx) hp
    rcases List.mem_cons.mp hi with hia | hil
    · subst hia
      have hmono := filterLenMono p q l himpr
      simp only [List.filter_cons, hpi, hqi, if_true, if_false, List.length_cons,
        Bool.false_eq_true]
      omega
    · have hlt := ih himpr i hil hqi hpi
      cases hpa : p a with
      | true =>
        have hqa : q a = true := himp a (List.mem_cons_self a l) hpa
        simp only [List.filter_cons, hpa, hqa, if_true, List.length_cons]
        omega
      | false =>
        cases hqa : q a with
        | true =>
          simp only [List.filter_cons, hpa, hqa, if_true, if_false, List.length_cons,
            Bool.false_eq_true]
          omega
        | false =>
          simp only [List.filter_cons, hpa, hqa, if_false, Bool.false_eq_true]
          exact hlt

/-- A duplicate-free list is no longer than any list containing it. -/
theorem nodupSubsetLength (l l' : List Nat) (hnd : l.Nodup) (hsub : ∀ x ∈ l, x ∈ l') :
    l.length ≤ l'.length :=
  calc l.length = l.toFinset.card := (List.toFinset_card_of_nodup hnd).symm
  _ ≤ l'.toFinset.card := Finset.card_le_card (fun x hx => by
      simp only [List.mem_toFinset] at hx ⊢
      exact hsub x hx)
  _ ≤ l'.length := l'.toFinset_card_le

/-- A reference past the heap has no contained values. -/
theorem childVals_oor (h : Heap) (i : Nat) (hge : h.objs.length ≤ i) :
    childVals h i = [] := by
  have hd : h.objs.getD i (HeapObj.map []) = HeapObj.map [] :=
    List.getD_eq_default _ _ hge
  rw [childVals, Heap.obj, hd]
  rfl

theorem lookup_mem_values : ∀ (pairs : List (JStr × YamlVal)) (k : JStr) (v : YamlVal),
    List.lookup k pairs = some v → ∃ p, p ∈ pairs ∧ p.2 = v := by
  intro pairs
  induction pairs with
  | nil => intro k v hl; exact Option.noConfusion hl
  | cons p rest ih =>
    intro k v hl
    rw [List.lookup] at hl
    split at hl
    · exact ⟨p, List.mem_cons_self p rest, Option.some.injEq _ _ ▸ hl⟩
    · obtain ⟨q, hq, hqv⟩ := ih k v hl
      exact ⟨q, List.mem_cons_of_mem p hq, hqv⟩

/-! ### C3: the scalar renderer never reports fuel exhaustion -/

theorem charCodeToHexString_not_fuel (n : Nat) :
    charCodeToHexString n ≠ .error .outOfFuel := by
  intro habs
  rw [charCodeToHexString] at habs
  split at habs
  · exact Except.noConfusion habs
  · split at habs
    · exact Except.noConfusion habs
    · split at habs
      · exact Except.noConfusion habs
      · simp at habs

theorem escapeUnit_not_fuel (c : Nat) : escapeUnit c ≠ .error .outOfFuel := by
  intro habs
  rw [escapeUnit] at habs
  split at habs
  · exact Except.noConfusion habs
  · split at habs
    · exact Except.noConfusion habs
    · exact charCodeToHexString_not_fuel c habs

theorem escapeStringAux_not_fuel : ∀ (s : JStr) (skip : Bool),
    escapeStringAux s skip ≠ .error .outOfFuel := by
  intro s
  induction s with
  | nil =>
    intro skip habs
    rw [escapeStringAux_nil] at habs
    exact Except.noConfusion habs
  | cons c rest ih =>
    intro skip habs
    rw [escapeStringAux_cons, escapeStringStep] at habs
    split at habs
    · exact ih false habs
    · split at habs
      · split at habs
        · rename_i e heq
          cases habs
          exact charCodeToHexString_not_fuel _ heq
        · split at habs
          · rename_i e heq
            cases habs
            exact ih true heq
          · exact Except.noConfusion habs
      · split at habs
        · rename_i e heq
          cases habs
          exact escapeUnit_not_fuel c heq
        · split at habs
          · rename_i e heq
            cases habs
            exact ih false heq
          · exact Except.noConfusion habs

theorem escapeString_not_fuel (s : JStr) : escapeString s ≠ .error .outOfFuel :=
  escapeStringAux_not_fuel s false

/-- `stringifyScalar` always finishes: its only failure is the hex-escape
range error, never fuel exhaustion. -/
theorem stringifyScalar_not_fuel (cfg : DumperState) (s : JStr) (level : Nat) (k : Bool) :
    cfg.stringifyScalar s level k ≠ .error .outOfFuel := by
  intro habs
  rw [DumperState.stringifyScalar] at habs
  split at habs
  · exact Except.noConfusion habs
  · split at habs
    · exact Except.noConfusion habs
    · dsimp only at habs
      split at habs
      · exact Except.noConfusion habs
      · exact Except.noConfusion habs
      · exact Except.noConfusion habs
      · exact Except.noConfusion habs
      · split at habs
        · rename_i e heq
          cases habs
          exact escapeString_not_fuel s heq
        · exact Except.noConfusion habs

/-! ### C3: pre-scan postconditions -/

/-- The scan has settled the edge `w → c`: the child is a known duplicate
or was pushed after its parent in visit order. -/
def EdgeDone (st : ScanState) (w c : Nat) : Prop :=
  c ∈ st.duplicateObjects ∨ (c ∈ st.objects ∧ posIn st.objects w < posIn st.objects c)

/-- A scan step only appends to the visited list and grows the duplicate
set. -/
def ScanExt (st out : ScanState) : Prop :=
  (∃ tl, out.objects = st.objects ++ tl) ∧
  (∀ x, x ∈ st.duplicateObjects → x ∈ out.duplicateObjects)

theorem scanExt_refl (st : ScanState) : ScanExt st st :=
  ⟨⟨[], by simp⟩, fun _ hx => hx⟩

theorem scanExt_trans {a b c : ScanState} (h1 : ScanExt a b) (h2 : ScanExt b c) :
    ScanExt a c := by
  obtain ⟨⟨t1, he1⟩, hd1⟩ := h1
  obtain ⟨⟨t2, he2⟩, hd2⟩ := h2
  exact ⟨⟨t1 ++ t2, by rw [he2, he1, List.append_assoc]⟩, fun x hx => hd2 x (hd1 x hx)⟩

theorem scanExt_mem_objects {st out : ScanState} (hext : ScanExt st out) {a : Nat}
    (ha : a ∈ st.objects) : a ∈ out.objects := by
  obtain ⟨⟨tl, he⟩, _⟩ := hext
  rw [he]
  exact List.mem_append.mpr (Or.inl ha)

theorem posIn_scanExt {st out : ScanState} (hext : ScanExt st out) {a : Nat}
    (ha : a ∈ st.objects) : posIn out.objects a = posIn st.objects a := by
  obtain ⟨⟨tl, he⟩, _⟩ := hext
  rw [he]
  exact posIn_append_left tl ha

theorem edgeDone_mono {st out : ScanState} (hext : ScanExt st out) {w c : Nat}
    (hw : w ∈ st.objects) (hd : EdgeDone st w c) : EdgeDone out w c := by
  rcases hd with hd | ⟨hc, hlt⟩
  · exact Or.inl (hext.2 c hd)
  · exact Or.inr ⟨scanExt_mem_objects hext hc,
      by rw [posIn_scanExt hext hw, posIn_scanExt hext hc]; exact hlt⟩

theorem setAdd_mem_self (s : List Nat) (i : Nat) : i ∈ setAdd s i := by
  rw [setAdd]
  split
  · assumption
  · exact List.mem_append.mpr (Or.inr (List.mem_singleton.mpr rfl))

theorem setAdd_mem_of_mem {s : List Nat} {x : Nat} (hx : x ∈ s) (i : Nat) :
    x ∈ setAdd s i := by
  rw [setAdd]
  split
  · exact hx
  · exact List.mem_append.mpr (Or.inl hx)

theorem setAdd_cases {s : List Nat} {x i : Nat} (hx : x ∈ setAdd s i) : x ∈ s ∨ x = i := by
  rw [setAdd] at hx
  split at hx
  · exact Or.inl hx
  · rcases List.mem_append.mp hx with hh | hh
    · exact Or.inl hh
    · exact Or.inr (List.mem_singleton.mp hh)

/-- A node seen a second time is added to the duplicate set and not
re-descended: the state is otherwise untouched. -/
theorem inspectNode_no_redescend (h : Heap) (fuel : Nat) (i : Nat) (st : ScanState)
    (hmem : i ∈ st.objects) :
    inspectNode h (fuel + 1) (.vref i) st =
      some { st with duplicateObjects := setAdd st.duplicateObjects i } := by
  rw [inspectNode]
  rw [if_pos hmem]

/-- What one scan step guarantees: extension, preserved duplicate-free
visit list, duplicates stay visited, newly visited nodes have all their
edges settled, and a scanned reference is visited (freshly pushed right
at the current end, or marked duplicate when already visited). -/
def ScanPost (h : Heap) (v : YamlVal) (st out : ScanState) : Prop :=
  ScanExt st out ∧
  (st.objects.Nodup → out.objects.Nodup) ∧
  ((∀ x ∈ st.duplicateObjects, x ∈ st.objects) →
    ∀ x ∈ out.duplicateObjects, x ∈ out.objects) ∧
  (∀ w c, w ∈ out.objects → w ∉ st.objects → YamlVal.vref c ∈ childVals h w →
    EdgeDone out w c) ∧
  (∀ i, v = .vref i →
    (i ∈ out.objects ∧ (i ∉ st.objects → ∃ tl, out.objects = st.objects ++ i :: tl)) ∧
    (i ∈ st.objects → i ∈ out.duplicateObjects))

/-- The children-loop version: additionally, every listed child edge of an
already-visited parent is settled. -/
def ScanPostC (h : Heap) (vs : List YamlVal) (st out : ScanState) : Prop :=
  ScanExt st out ∧
  (st.objects.Nodup → out.objects.Nodup) ∧
  ((∀ x ∈ st.duplicateObjects, x ∈ st.objects) →
    ∀ x ∈ out.duplicateObjects, x ∈ out.objects) ∧
  (∀ w c, w ∈ out.objects → w ∉ st.objects → YamlVal.vref c ∈ childVals h w →
    EdgeDone out w c) ∧
  (∀ w c, w ∈ st.objects → YamlVal.vref c ∈ vs → EdgeDone out w c)

theorem inspectChildren_post (h : Heap) (go : YamlVal → ScanState → Option ScanState)
    (hgo : ∀ v st out, go v st = some out → ScanPost h v st out) :
    ∀ (vs : List YamlVal) (st out : ScanState),
      inspectChildren go vs st = some out → ScanPostC h vs st out := by
  intro vs
  induction vs with
  | nil =>
    intro st out hok
    rw [inspectChildren] at hok
    cases hok
    exact ⟨scanExt_refl st, fun hnd => hnd, fun hd => hd,
           fun w c hw hnw _ => absurd hw hnw,
           fun w c _ hc => absurd hc (List.not_mem_nil _)⟩
  | cons v rest ih =>
    intro st out hok
    rw [inspectChildren] at hok
    split at hok
    · exact Option.noConfusion hok
    · rename_i st1 heq
      obtain ⟨hext1, hnd1, hdo1, hS41, hS51⟩ := hgo v st st1 heq
      obtain ⟨hext2, hnd2, hdo2, hS42, hSC52⟩ := ih st1 out hok
      refine ⟨scanExt_trans hext1 hext2, fun hnd => hnd2 (hnd1 hnd),
        fun hd => hdo2 (hdo1 hd), ?_, ?_⟩
      · intro w c hw hnw hchild
        by_cases hw1 : w ∈ st1.objects
        · exact edgeDone_mono hext2 hw1 (hS41 w c hw1 hnw hchild)
        · exact hS42 w c hw hw1 hchild
      · intro w c hw hc
        rcases List.mem_cons.mp hc with hvc | hcrest
        · obtain ⟨⟨hcin1, hfresh⟩, hdup⟩ := hS51 c hvc.symm
          by_cases hcin : c ∈ st.objects
          · exact Or.inl (hext2.2 c (hdup hcin))
          · obtain ⟨tl, heq1⟩ := hfresh hcin
            refine edgeDone_mono hext2 (scanExt_mem_objects hext1 hw) (Or.inr ⟨hcin1, ?_⟩)
            rw [heq1, posIn_append_left (c :: tl) hw, posIn_append_not_mem hcin tl]
            exact posIn_lt_length hw
        · exact hSC52 w c (scanExt_mem_objects hext1 hw) hcrest

theorem inspectNode_post (h : Heap) : ∀ (fuel : Nat) (v : YamlVal) (st out : ScanState),
    inspectNode h fuel v st = some out → ScanPost h v st out := by
  intro fuel
  induction fuel with
  | zero =>
    intro v st out hok
    exact Option.noConfusion hok
  | succ fuel ih =>
    intro v st out hok
    cases v with
    | vref i =>
      by_cases hmem : i ∈ st.objects
      · rw [inspectNode_no_redescend h fuel i st hmem] at hok
        cases hok
        refine ⟨⟨⟨[], by simp⟩, fun x hx => setAdd_mem_of_mem hx i⟩, fun hnd => hnd,
          ?_, ?_, ?_⟩
        · intro hd x hx
          rcases setAdd_cases hx with hh | hh
          · exact hd x hh
          · exact hh ▸ hmem
        · intro w c hw hnw _
          exact absurd hw hnw
        · intro j hj
          cases hj
          exact ⟨⟨hmem, fun hno => absurd hmem hno⟩, fun _ => setAdd_mem_self _ i⟩
      · have hstep : inspectNode h (fuel + 1) (.vref i) st =
            inspectChildren (fun v s => inspectNode h fuel v s) (childVals h i)
              { st with objects := st.objects ++ [i] } := by
          rw [inspectNode]
          rw [if_neg hmem]
        rw [hstep] at hok
        obtain ⟨hext, hnd, hdo, hS4, hSC5⟩ :=
          inspectChildren_post h _ (fun v st out hgo => ih v st out hgo)
            (childVals h i) _ out hok
        have hi' : i ∈ ({ st with objects := st.objects ++ [i] } : ScanState).objects :=
          List.mem_append.mpr (Or.inr (List.mem_singleton.mpr rfl))
        obtain ⟨tl, hobj⟩ := hext.1
        have hobj' : out.objects = st.objects ++ i :: tl := by
          rw [hobj, List.append_assoc]
          rfl
        refine ⟨⟨⟨i :: tl, hobj'⟩, hext.2⟩, ?_, ?_, ?_, ?_⟩
        · intro hnds
          exact hnd (List.Nodup.append hnds (List.nodup_singleton i)
            (List.disjoint_singleton.mpr hmem))
        · intro hd x hx
          exact hdo (fun y hy => List.mem_append.mpr (Or.inl (hd y hy))) x hx
        · intro w c hw hnw hchild
          by_cases hw' : w ∈ ({ st with objects := st.objects ++ [i] } : ScanState).objects
          · have hwi : w = i := by
              rcases List.mem_append.mp hw' with hh | hh
              · exact absurd hh hnw
              · exact List.mem_singleton.mp hh
            subst hwi
            exact hSC5 w c hw' hchild
          · exact hS4 w c hw hw' hchild
        · intro j hj
          cases hj
          exact ⟨⟨scanExt_mem_objects hext hi', fun _ => ⟨tl, hobj'⟩⟩,
            fun hin => absurd hin hmem⟩
    | vstr s =>
      have hstep : inspectNode h (fuel + 1) (.vstr s) st = some st := rfl
      rw [hstep] at hok
      cases hok
      exact ⟨scanExt_refl st, fun hnd => hnd, fun hd => hd,
        fun w c hw hnw _ => absurd hw hnw, fun j hj => YamlVal.noConfusion hj⟩
    | vother =>
      have hstep : inspectNode h (fuel + 1) .vother st = some st := rfl
      rw [hstep] at hok
      cases hok
      exact ⟨scanExt_refl st, fun hnd => hnd, fun hd => hd,
        fun w c hw hnw _ => absurd hw hnw, fun j hj => YamlVal.noConfusion hj⟩

/-! ### C3: the pre-scan terminates on any well-formed heap -/

/-- A value's reference, if any, stays below the heap size. -/
def refBoundedB (n : Nat) : YamlVal → Bool
  | .vref c => decide (c < n)
  | _ => true

/-- Every reference contained in any heap object is in range (JS
references always denote live objects). -/
abbrev WfHeap (h : Heap) : Prop :=
  ∀ i, i < h.objs.length → ∀ v ∈ childVals h i, refBoundedB h.objs.length v = true

theorem wfHeap_ref {h : Heap} (hwf : WfHeap h) {i c : Nat}
    (hc : YamlVal.vref c ∈ childVals h i) : c < h.objs.length := by
  by_cases hi : i < h.objs.length
  · have := hwf i hi _ hc
    exact of_decide_eq_true this
  · rw [childVals_oor h i (le_of_not_lt hi)] at hc
    exact absurd hc (List.not_mem_nil _)

/-- How many heap objects the scan has not visited yet. -/
def scanMiss (h : Heap) (st : ScanState) : Nat :=
  ((List.range h.objs.length).filter (fun x => decide (x ∉ st.objects))).length

theorem scanMiss_mono {h : Heap} {st out : ScanState}
    (hext : ∃ tl, out.objects = st.objects ++ tl) : scanMiss h out ≤ scanMiss h st := by
  obtain ⟨tl, he⟩ := hext
  apply filterLenMono
  intro x _ hp
  have hout : x ∉ out.objects := of_decide_eq_true hp
  refine decide_eq_true (fun hin => hout ?_)
  rw [he]
  exact List.mem_append.mpr (Or.inl hin)

theorem scanMiss_push {h : Heap} {st : ScanState} {i : Nat} (hi : i < h.objs.length)
    (hmem : i ∉ st.objects) :
    scanMiss h { st with objects := st.objects ++ [i] } < scanMiss h st := by
  apply filterLenLt
  · intro x _ hp
    have hout : x ∉ st.objects ++ [i] := of_decide_eq_true hp
    exact decide_eq_true (fun hin => hout (List.mem_append.mpr (Or.inl hin)))
  · exact List.mem_range.mpr hi
  · exact decide_eq_true hmem
  · exact decide_eq_false (fun hno =>
      hno (List.mem_append.mpr (Or.inr (List.mem_singleton.mpr rfl))))

theorem inspectChildren_total (h : Heap) (fuel : Nat)
    (hgo : ∀ (v : YamlVal) (s : ScanState), refBoundedB h.objs.length v = true →
      scanMiss h s < fuel → inspectNode h fuel v s ≠ none) :
    ∀ (vs : List YamlVal) (s : ScanState),
      (∀ v ∈ vs, refBoundedB h.objs.length v = true) → scanMiss h s < fuel →
      inspectChildren (fun v s => inspectNode h fuel v s) vs s ≠ none := by
  intro vs
  induction vs with
  | nil =>
    intro s _ _ habs
    rw [inspectChildren] at habs
    exact Option.noConfusion habs
  | cons v rest ih =>
    intro s hall hm habs
    rw [inspectChildren] at habs
    split at habs
    · rename_i heq
      exact hgo v s (hall v (List.mem_cons_self v rest)) hm heq
    · rename_i st1 heq
      have hext := (inspectNode_post h fuel v s st1 heq).1
      exact ih st1 (fun u hu => hall u (List.mem_cons_of_mem v hu))
        (lt_of_le_of_lt (scanMiss_mono hext.1) hm) habs

theorem inspectNode_total (h : Heap) (hwf : WfHeap h) :
    ∀ (fuel : Nat) (v : YamlVal) (st : ScanState),
      refBoundedB h.objs.length v = true → scanMiss h st < fuel →
      inspectNode h fuel v st ≠ none := by
  intro fuel
  induction fuel with
  | zero =>
    intro v st _ hm
    exact absurd hm (Nat.not_lt_zero _)
  | succ fuel ih =>
    intro v st hgood hm habs
    cases v with
    | vstr s =>
      exact Option.noConfusion ((rfl : inspectNode h (fuel + 1) (.vstr s) st = some st) ▸ habs)
    | vother =>
      exact Option.noConfusion ((rfl : inspectNode h (fuel + 1) .vother st = some st) ▸ habs)
    | vref i =>
      by_cases hmem : i ∈ st.objects
      · rw [inspectNode_no_redescend h fuel i st hmem] at habs
        exact Option.noConfusion habs
      · have hi : i < h.objs.length := of_decide_eq_true hgood
        have hstep : inspectNode h (fuel + 1) (.vref i) st =
            inspectChildren (fun v s => inspectNode h fuel v s) (childVals h i)
              { st with objects := st.objects ++ [i] } := by
          rw [inspectNode]
          rw [if_neg hmem]
        rw [hstep] at habs
        have hms : scanMiss h { st with objects := st.objects ++ [i] } < fuel := by
          have := scanMiss_push hi hmem
          omega
        exact inspectChildren_total h fuel (fun v s hg hs => ih v s hg hs)
          (childVals h i) _ (hwf i hi) hms habs

theorem getDuplicateReferences_total (h : Heap) (hwf : WfHeap h) (fuel : Nat)
    (v : YamlVal) (hgood : refBoundedB h.objs.length v = true)
    (hf : h.objs.length < fuel) : getDuplicateReferences h fuel v ≠ none := by
  have hms : scanMiss h ⟨[], []⟩ < fuel := by
    have hle : scanMiss h ⟨[], []⟩ ≤ h.objs.length := by
      rw [scanMiss]
      calc ((List.range h.objs.length).filter _).length
          ≤ (List.range h.objs.length).length := List.length_filter_le _ _
        _ = h.objs.length := List.length_range _
    omega
  intro habs
  rw [getDuplicateReferences] at habs
  split at habs
  · rename_i heq
    exact inspectNode_total h hwf fuel v ⟨[], []⟩ hgood hms heq
  · exact Option.noConfusion habs

/-! ### C3: the render pass terminates — fuel potential -/

/-- Values the render can ever be handed: references must have been
visited by the pre-scan. -/
def GoodVal (O : List Nat) : YamlVal → Prop
  | .vref i => i ∈ O
  | _ => True

/-- Duplicate-registry nodes not yet anchored. -/
def dupTokens (cfg : DumperState) (st : RState) : Nat :=
  cfg.duplicates.length - st.used.length

/-- The chain budget: longer than twice any visit-order chain. -/
def chainBudget (O : List Nat) : Nat := 2 * O.length + 2

/-- Fuel potential of a pending render: each unanchored duplicate buys a
full chain budget; a non-duplicate reference only has the tail of its
visit-order chain left. -/
def Phi (cfg : DumperState) (O : List Nat) (st : RState) : YamlVal → Nat
  | .vref i =>
    if i ∈ cfg.duplicates then
      (if i ∈ st.used then 0 else dupTokens cfg st * chainBudget O)
    else dupTokens cfg st * chainBudget O + 2 * (O.length - posIn O i)
  | .vstr _ => 0
  | .vother => 0

theorem rinv_alias_push (cfg : DumperState) (st : RState) (i : Nat) (hinv : RInv cfg st)
    (hused : i ∈ st.used) : RInv cfg (pushEvent st (.alias i)) :=
  ⟨traceInv_alias st i hinv.1 ((hinv.1.1 i).mp hused), hinv.2⟩

theorem rinv_anchor_push (cfg : DumperState) (st : RState) (i : Nat) (hinv : RInv cfg st)
    (hdup : i ∈ cfg.duplicates) (hnu : i ∉ st.used) :
    RInv cfg (pushEvent { st with used := st.used ++ [i] } (.anchor i)) := by
  refine ⟨traceInv_anchor st i hinv.1 hnu, ?_, ?_⟩
  · intro j hj
    rcases List.mem_append.mp hj with hh | hh
    · exact hinv.2.1 j hh
    · rw [List.mem_singleton.mp hh]
      exact hdup
  · exact List.Nodup.append hinv.2.2 (List.nodup_singleton i)
      (List.disjoint_singleton.mpr hnu)

theorem usedInv_len {cfg : DumperState} {st : RState} (h : UsedInv cfg st) :
    st.used.length ≤ cfg.duplicates.length :=
  nodupSubsetLength st.used cfg.duplicates h.2 h.1

theorem flowSeqLoop_total (child : Child) (P : RState → Prop) (G : YamlVal → Prop)
    (hpres : ∀ (l : Nat) (v : YamlVal) (b c k : Bool) (s : RState) (r : Option JStr)
      (s' : RState), child l v b c k s = .ok (r, s') → P s → P s')
    (hch : ∀ (l : Nat) (v : YamlVal) (b c k : Bool) (s : RState), P s → G v →
      child l v b c k s ≠ .error .outOfFuel)
    (cf : Bool) (level : Nat) :
    ∀ (elems : List YamlVal) (index : Nat) (result : JStr) (st : RState),
      P st → (∀ v ∈ elems, G v) →
      flowSeqLoop cf child level elems index result st ≠ .error .outOfFuel := by
  intro elems
  induction elems with
  | nil =>
    intro index result st _ _ habs
    rw [flowSeqLoop] at habs
    exact Except.noConfusion habs
  | cons v rest ih =>
    intro index result st hP hG habs
    rw [flowSeqLoop] at habs
    split at habs
    · rename_i e heq
      cases habs
      exact hch _ _ _ _ _ _ hP (hG v (List.mem_cons_self v rest)) heq
    · rename_i st1 heq
      exact ih _ _ st1 (hpres _ _ _ _ _ _ _ _ heq hP)
        (fun u hu => hG u (List.mem_cons_of_mem v hu)) habs
    · rename_i s st1 heq
      exact ih _ _ st1 (hpres _ _ _ _ _ _ _ _ heq hP)
        (fun u hu => hG u (List.mem_cons_of_mem v hu)) habs

theorem blockSeqLoop_total (child : Child) (P : RState → Prop) (G : YamlVal → Prop)
    (hpres : ∀ (l : Nat) (v : YamlVal) (b c k : Bool) (s : RState) (r : Option JStr)
      (s' : RState), child l v b c k s = .ok (r, s') → P s → P s')
    (hch : ∀ (l : Nat) (v : YamlVal) (b c k : Bool) (s : RState), P s → G v →
      child l v b c k s ≠ .error .outOfFuel)
    (indent : Int) (level : Nat) (compact : Bool) :
    ∀ (elems : List YamlVal) (index : Nat) (result : JStr) (st : RState),
      P st → (∀ v ∈ elems, G v) →
      blockSeqLoop indent child level compact elems index result st ≠
        .error .outOfFuel := by
  intro elems
  induction elems with
  | nil =>
    intro index result st _ _ habs
    rw [blockSeqLoop] at habs
    exact Except.noConfusion habs
  | cons v rest ih =>
    intro index result st hP hG habs
    rw [blockSeqLoop] at habs
    split at habs
    · rename_i e heq
      cases habs
      exact hch _ _ _ _ _ _ hP (hG v (List.mem_cons_self v rest)) heq
    · rename_i st1 heq
      exact ih _ _ st1 (hpres _ _ _ _ _ _ _ _ heq hP)
        (fun u hu => hG u (List.mem_cons_of_mem v hu)) habs
    · rename_i s st1 heq
      exact ih _ _ st1 (hpres _ _ _ _ _ _ _ _ heq hP)
        (fun u hu => hG u (List.mem_cons_of_mem v hu)) habs

theorem flowMapLoop_total (child : Child) (P : RState → Prop) (G : YamlVal → Prop)
    (hpres : ∀ (l : Nat) (v : YamlVal) (b c k : Bool) (s : RState) (r : Option JStr)
      (s' : RState), child l v b c k s = .ok (r, s') → P s → P s')
    (hch : ∀ (l : Nat) (v : YamlVal) (b c k : Bool) (s : RState), P s → G v →
      child l v b c k s ≠ .error .outOfFuel)
    (cf : Bool) (level : Nat) :
    ∀ (pairs : List (JStr × YamlVal)) (index : Nat) (result : JStr) (st : RState),
      P st → (∀ p ∈ pairs, G (.vstr p.1) ∧ G p.2) →
      flowMapLoop cf child level pairs index result st ≠ .error .outOfFuel := by
  intro pairs
  induction pairs with
  | nil =>
    intro index result st _ _ habs
    rw [flowMapLoop] at habs
    exact Except.noConfusion habs
  | cons p rest ih =>
    obtain ⟨objectKey, objectValue⟩ := p
    intro index result st hP hG habs
    have hGp := hG (objectKey, objectValue) (List.mem_cons_self _ rest)
    have hGrest : ∀ q ∈ rest, G (.vstr q.1) ∧ G q.2 :=
      fun q hq => hG q (List.mem_cons_of_mem _ hq)
    rw [flowMapLoop] at habs
    split at habs
    · rename_i e heq
      cases habs
      exact hch _ _ _ _ _ _ hP hGp.1 heq
    · rename_i st1 heq
      exact ih _ _ st1 (hpres _ _ _ _ _ _ _ _ heq hP) hGrest habs
    · rename_i keyString st1 heq
      have hP1 := hpres _ _ _ _ _ _ _ _ heq hP
      dsimp only at habs
      split at habs
      · rename_i e heq2
        cases habs
        exact hch _ _ _ _ _ _ hP1 hGp.2 heq2
      · rename_i st2 heq2
        exact ih _ _ st2 (hpres _ _ _ _ _ _ _ _ heq2 hP1) hGrest habs
      · rename_i valueString st2 heq2
        exact ih _ _ st2 (hpres _ _ _ _ _ _ _ _ heq2 hP1) hGrest habs

theorem blockMapLoop_total (child : Child) (P : RState → Prop) (G : YamlVal → Prop)
    (hpres : ∀ (l : Nat) (v : YamlVal) (b c k : Bool) (s : RState) (r : Option JStr)
      (s' : RState), child l v b c k s = .ok (r, s') → P s → P s')
    (hch : ∀ (l : Nat) (v : YamlVal) (b c k : Bool) (s : RState), P s → G v →
      child l v b c k s ≠ .error .outOfFuel)
    (indent : Int) (pairs : List (JStr × YamlVal)) (tag : Option JStr) (level : Nat)
    (compact : Bool) (hGvals : ∀ p ∈ pairs, G p.2) (hGother : G .vother) :
    ∀ (keys : List JStr) (index : Nat) (result : JStr) (st : RState),
      P st → (∀ kk ∈ keys, G (.vstr kk)) →
      blockMapLoop indent child pairs tag level compact keys index result st ≠
        .error .outOfFuel := by
  intro keys
  induction keys with
  | nil =>
    intro index result st _ _ habs
    rw [blockMapLoop] at habs
    exact Except.noConfusion habs
  | cons objectKey rest ih =>
    intro index result st hP hG habs
    have hGval : G ((List.lookup objectKey pairs).getD .vother) := by
      cases hl : List.lookup objectKey pairs with
      | none => exact hGother
      | some v =>
        obtain ⟨p, hp, hpv⟩ := lookup_mem_values pairs _ v hl
        rw [Option.getD_some]
        exact hpv ▸ hGvals p hp
    have hGrest : ∀ kk ∈ rest, G (.vstr kk) :=
      fun kk hk => hG kk (List.mem_cons_of_mem _ hk)
    rw [blockMapLoop] at habs
    split at habs
    · rename_i e heq
      cases habs
      exact hch _ _ _ _ _ _ hP (hG objectKey (List.mem_cons_self _ rest)) heq
    · rename_i st1 heq
      exact ih _ _ st1 (hpres _ _ _ _ _ _ _ _ heq hP) hGrest habs
    · rename_i keyString st1 heq
      have hP1 := hpres _ _ _ _ _ _ _ _ heq hP
      dsimp only at habs
      split at habs
      · rename_i e heq2
        cases habs
        exact hch _ _ _ _ _ _ hP1 hGval heq2
      · rename_i st2 heq2
        exact ih _ _ st2 (hpres _ _ _ _ _ _ _ _ heq2 hP1) hGrest habs
      · rename_i valueString st2 heq2
        exact ih _ _ st2 (hpres _ _ _ _ _ _ _ _ heq2 hP1) hGrest habs

theorem mem_insertBy {lt : JStr → JStr → Bool} {x y : JStr} : ∀ {l : List JStr},
    y ∈ insertBy lt x l → y = x ∨ y ∈ l := by
  intro l
  induction l with
  | nil =>
    intro hy
    rw [insertBy] at hy
    exact Or.inl (List.mem_singleton.mp hy)
  | cons z rest ih =>
    intro hy
    rw [insertBy] at hy
    split at hy
    · rcases List.mem_cons.mp hy with hh | hh
      · exact Or.inr (hh ▸ List.mem_cons_self z rest)
      · rcases ih hh with hh2 | hh2
        · exact Or.inl hh2
        · exact Or.inr (List.mem_cons_of_mem z hh2)
    · rcases List.mem_cons.mp hy with hh | hh
      · exact Or.inl hh
      · exact Or.inr hh

theorem mem_sortBy {lt : JStr → JStr → Bool} {y : JStr} : ∀ {l : List JStr},
    y ∈ sortBy lt l → y ∈ l := by
  intro l
  induction l with
  | nil =>
    intro hy
    exact absurd hy (List.not_mem_nil y)
  | cons x rest ih =>
    intro hy
    rw [sortBy] at hy
    rcases mem_insertBy hy with hh | hh
    · exact hh ▸ List.mem_cons_self x rest
    · exact List.mem_cons_of_mem x (ih hh)

theorem stringifyFlowSequence_total (child : Child) (P : RState → Prop) (G : YamlVal → Prop)
    (hpres : ∀ (l : Nat) (v : YamlVal) (b c k : Bool) (s : RState) (r : Option JStr)
      (s' : RState), child l v b c k s = .ok (r, s') → P s → P s')
    (hch : ∀ (l : Nat) (v : YamlVal) (b c k : Bool) (s : RState), P s → G v →
      child l v b c k s ≠ .error .outOfFuel)
    (cf : Bool) (elems : List YamlVal) (level : Nat) (st : RState)
    (hP : P st) (hG : ∀ v ∈ elems, G v) :
    stringifyFlowSequence cf child elems level st ≠ .error .outOfFuel := by
  intro habs
  rw [stringifyFlowSequence] at habs
  split at habs
  · rename_i e heq
    cases habs
    exact flowSeqLoop_total child P G hpres hch cf level elems 0 [] st hP hG heq
  · exact Except.noConfusion habs

theorem stringifyBlockSequence_total (child : Child) (P : RState → Prop) (G : YamlVal → Prop)
    (hpres : ∀ (l : Nat) (v : YamlVal) (b c k : Bool) (s : RState) (r : Option JStr)
      (s' : RState), child l v b c k s = .ok (r, s') → P s → P s')
    (hch : ∀ (l : Nat) (v : YamlVal) (b c k : Bool) (s : RState), P s → G v →
      child l v b c k s ≠ .error .outOfFuel)
    (indent : Int) (elems : List YamlVal) (level : Nat) (compact : Bool) (st : RState)
    (hP : P st) (hG : ∀ v ∈ elems, G v) :
    stringifyBlockSequence indent child elems level compact st ≠ .error .outOfFuel := by
  intro habs
  rw [stringifyBlockSequence] at habs
  split at habs
  · rename_i e heq
    cases habs
    exact blockSeqLoop_total child P G hpres hch indent level compact elems 0 [] st hP hG heq
  · exact Except.noConfusion habs

theorem stringifyFlowMapping_total (child : Child) (P : RState → Prop) (G : YamlVal → Prop)
    (hpres : ∀ (l : Nat) (v : YamlVal) (b c k : Bool) (s : RState) (r : Option JStr)
      (s' : RState), child l v b c k s = .ok (r, s') → P s → P s')
    (hch : ∀ (l : Nat) (v : YamlVal) (b c k : Bool) (s : RState), P s → G v →
      child l v b c k s ≠ .error .outOfFuel)
    (cf : Bool) (fields : List (JStr × YamlVal)) (level : Nat) (st : RState)
    (hP : P st) (hG : ∀ p ∈ fields, G (.vstr p.1) ∧ G p.2) :
    stringifyFlowMapping cf child fields level st ≠ .error .outOfFuel := by
  intro habs
  rw [stringifyFlowMapping] at habs
  split at habs
  · rename_i e heq
    cases habs
    exact flowMapLoop_total child P G hpres hch cf level fields 0 [] st hP hG heq
  · exact Except.noConfusion habs

theorem stringifyBlockMapping_total (cfg : DumperState) (child : Child) (P : RState → Prop)
    (G : YamlVal → Prop)
    (hpres : ∀ (l : Nat) (v : YamlVal) (b c k : Bool) (s : RState) (r : Option JStr)
      (s' : RState), child l v b c k s = .ok (r, s') → P s → P s')
    (hch : ∀ (l : Nat) (v : YamlVal) (b c k : Bool) (s : RState), P s → G v →
      child l v b c k s ≠ .error .outOfFuel)
    (fields : List (JStr × YamlVal)) (tag : Option JStr) (level : Nat) (compact : Bool)
    (st : RState) (hP : P st) (hGvals : ∀ p ∈ fields, G p.2) (hGother : G .vother)
    (hGkeys : ∀ kk, G (.vstr kk)) :
    stringifyBlockMapping cfg child fields tag level compact st ≠ .error .outOfFuel := by
  intro habs
  rw [stringifyBlockMapping] at habs
  split at habs
  · rename_i e heq
    cases habs
    exact blockMapLoop_total child P G hpres hch cfg.indent fields tag level compact
      hGvals hGother _ 0 [] st hP (fun kk _ => hGkeys kk) heq
  · exact Except.noConfusion habs

theorem Phi_vstr (cfg : DumperState) (O : List Nat) (st : RState) (s : JStr) :
    Phi cfg O st (.vstr s) = 0 := rfl

theorem Phi_vother (cfg : DumperState) (O : List Nat) (st : RState) :
    Phi cfg O st .vother = 0 := rfl

theorem Phi_ref (cfg : DumperState) (O : List Nat) (st : RState) (i : Nat) :
    Phi cfg O st (.vref i) =
      if i ∈ cfg.duplicates then
        (if i ∈ st.used then 0 else dupTokens cfg st * chainBudget O)
      else dupTokens cfg st * chainBudget O + 2 * (O.length - posIn O i) := rfl

theorem stringifyRef_total (cfg : DumperState) (h : Heap) (O : List Nat)
    (hedge : ∀ w, w ∈ O → ∀ c, YamlVal.vref c ∈ childVals h w →
      c ∈ cfg.duplicates ∨ (c ∈ O ∧ posIn O w < posIn O c))
    (hsub : ∀ x ∈ cfg.duplicates, x ∈ O)
    (F : Nat) (child : Child)
    (hpres : ∀ (l : Nat) (v : YamlVal) (b c k : Bool) (s : RState) (r : Option JStr)
      (s' : RState), child l v b c k s = .ok (r, s') → RInv cfg s →
      RInv cfg s' ∧ ∀ x ∈ s.used, x ∈ s'.used)
    (hch : ∀ (l : Nat) (v : YamlVal) (b c k : Bool) (s : RState), RInv cfg s →
      GoodVal O v → Phi cfg O s v < F → child l v b c k s ≠ .error .outOfFuel)
    (level i : Nat) (b0 c0 : Bool) (st : RState)
    (hinv : RInv cfg st) (hiO : i ∈ O) (hPhi : Phi cfg O st (.vref i) < F + 1) :
    stringifyRef cfg h child level i b0 c0 st ≠ .error .outOfFuel := by
  intro habs
  rw [stringifyRef] at habs
  dsimp only at habs
  by_cases hcond : jsIndexOf cfg.duplicates i ≠ -1 ∧ i ∈ st.used
  · rw [if_pos hcond] at habs
    exact Except.noConfusion habs
  · rw [if_neg hcond] at habs
    obtain ⟨st1, hst1, hinv1, hstep⟩ :
        ∃ st1, (if jsIndexOf cfg.duplicates i ≠ -1 then
            pushEvent { st with used := st.used ++ [i] } (AnchorEvent.anchor i) else st) = st1 ∧
          RInv cfg st1 ∧
          ∀ (s : RState) (v : YamlVal), RInv cfg s → (∀ x ∈ st1.used, x ∈ s.used) →
            (GoodVal O v ∧ ∀ cc, v = YamlVal.vref cc →
              cc ∈ cfg.duplicates ∨ (cc ∈ O ∧ posIn O i < posIn O cc)) →
            Phi cfg O s v + 2 ≤ Phi cfg O st (.vref i) := by
      by_cases hdup : jsIndexOf cfg.duplicates i ≠ -1
      · have hdm : i ∈ cfg.duplicates := (jsIndexOf_ne_neg_one _ i).mp hdup
        have hnu : i ∉ st.used := fun hm => hcond ⟨hdup, hm⟩
        have hinvp := rinv_anchor_push cfg st i hinv hdm hnu
        refine ⟨_, if_pos hdup, hinvp, ?_⟩
        have hlen1 : (pushEvent { st with used := st.used ++ [i] }
            (AnchorEvent.anchor i)).used.length = st.used.length + 1 := by
          simp [pushEvent]
        have hDlen := usedInv_len hinvp.2
        rw [hlen1] at hDlen
        have hPhiSt : Phi cfg O st (.vref i) = dupTokens cfg st * chainBudget O := by
          rw [Phi_ref, if_pos hdm, if_neg hnu]
        have hB2 : 2 ≤ chainBudget O := by
          rw [chainBudget]
          omega
        have htokpos : 0 < dupTokens cfg st := by
          rw [dupTokens]
          omega
        intro s v hinvs hsubs hGc
        have hlens := nodupSubsetLength _ s.used hinvp.2.2 hsubs
        rw [hlen1] at hlens
        have htok_s : dupTokens cfg s + 1 ≤ dupTokens cfg st := by
          rw [dupTokens, dupTokens]
          omega
        have hmul : (dupTokens cfg s + 1) * chainBudget O ≤
            dupTokens cfg st * chainBudget O := Nat.mul_le_mul_right _ htok_s
        rw [Nat.succ_mul] at hmul
        have htwo : 2 ≤ dupTokens cfg st * chainBudget O :=
          le_trans hB2 (Nat.le_mul_of_pos_left _ htokpos)
        rw [hPhiSt]
        cases v with
        | vstr sv =>
          rw [Phi_vstr, Nat.zero_add]
          exact htwo
        | vother =>
          rw [Phi_vother, Nat.zero_add]
          exact htwo
        | vref cc =>
          by_cases hccd : cc ∈ cfg.duplicates
          · rw [Phi_ref, if_pos hccd]
            by_cases hccu : cc ∈ s.used
            · rw [if_pos hccu, Nat.zero_add]
              exact htwo
            · rw [if_neg hccu]
              calc dupTokens cfg s * chainBudget O + 2
                  ≤ dupTokens cfg s * chainBudget O + chainBudget O :=
                    Nat.add_le_add_left hB2 _
                _ ≤ dupTokens cfg st * chainBudget O := hmul
          · have hposf : cc ∈ O ∧ posIn O i < posIn O cc := by
              rcases hGc.2 cc rfl with hh | hh
              · exact absurd hh hccd
              · exact hh
            rw [Phi_ref, if_neg hccd]
            have hA : 2 * (O.length - posIn O cc) + 2 ≤ chainBudget O := by
              rw [chainBudget]
              omega
            calc dupTokens cfg s * chainBudget O + 2 * (O.length - posIn O cc) + 2
                = dupTokens cfg s * chainBudget O +
                    (2 * (O.length - posIn O cc) + 2) := by
                  rw [Nat.add_assoc]
              _ ≤ dupTokens cfg s * chainBudget O + chainBudget O :=
                  Nat.add_le_add_left hA _
              _ ≤ dupTokens cfg st * chainBudget O := hmul
      · have hdm : i ∉ cfg.duplicates := fun hm =>
          hdup ((jsIndexOf_ne_neg_one _ i).mpr hm)
        refine ⟨st, if_neg hdup, hinv, ?_⟩
        have hPhiSt : Phi cfg O st (.vref i) =
            dupTokens cfg st * chainBudget O + 2 * (O.length - posIn O i) := by
          rw [Phi_ref, if_neg hdm]
        have hposi : posIn O i < O.length := posIn_lt_length hiO
        have hB2 : 2 ≤ chainBudget O := by
          rw [chainBudget]
          omega
        have hgap : 2 ≤ 2 * (O.length - posIn O i) := by omega
        intro s v hinvs hsubs hGc
        have hlens := nodupSubsetLength _ s.used hinv.2.2 hsubs
        have htok_s : dupTokens cfg s ≤ dupTokens cfg st := by
          rw [dupTokens, dupTokens]
          omega
        have hmul : dupTokens cfg s * chainBudget O ≤ dupTokens cfg st * chainBudget O :=
          Nat.mul_le_mul_right _ htok_s
        rw [hPhiSt]
        cases v with
        | vstr sv =>
          rw [Phi_vstr, Nat.zero_add]
          exact le_trans hgap (Nat.le_add_left _ _)
        | vother =>
          rw [Phi_vother, Nat.zero_add]
          exact le_trans hgap (Nat.le_add_left _ _)
        | vref cc =>
          by_cases hccd : cc ∈ cfg.duplicates
          · rw [Phi_ref, if_pos hccd]
            by_cases hccu : cc ∈ s.used
            · rw [if_pos hccu, Nat.zero_add]
              exact le_trans hgap (Nat.le_add_left _ _)
            · rw [if_neg hccu]
              exact Nat.add_le_add hmul hgap
          · have hposf : cc ∈ O ∧ posIn O i < posIn O cc := by
              rcases hGc.2 cc rfl with hh | hh
              · exact absurd hh hccd
              · exact hh
            rw [Phi_ref, if_neg hccd]
            have hposc : posIn O cc < O.length := posIn_lt_length hposf.1
            have hlin : 2 * (O.length - posIn O cc) + 2 ≤ 2 * (O.length - posIn O i) := by
              have := hposf.2
              omega
            calc dupTokens cfg s * chainBudget O + 2 * (O.length - posIn O cc) + 2
                = dupTokens cfg s * chainBudget O +
                    (2 * (O.length - posIn O cc) + 2) := by
                  rw [Nat.add_assoc]
              _ ≤ dupTokens cfg st * chainBudget O + 2 * (O.length - posIn O i) :=
                  Nat.add_le_add hmul hlin
    rw [hst1] at habs
    have hP1 : RInv cfg st1 ∧ (∀ x ∈ st1.used, x ∈ st1.used) := ⟨hinv1, fun x hx => hx⟩
    have hpresP : ∀ (l : Nat) (v : YamlVal) (b c k : Bool) (s : RState) (r : Option JStr)
        (s' : RState), child l v b c k s = .ok (r, s') →
        (RInv cfg s ∧ (∀ x ∈ st1.used, x ∈ s.used)) →
        (RInv cfg s' ∧ (∀ x ∈ st1.used, x ∈ s'.used)) := by
      intro l v b c k s r s' hok hPs
      obtain ⟨hs', hmono⟩ := hpres l v b c k s r s' hok hPs.1
      exact ⟨hs', fun x hx => hmono x (hPs.2 x hx)⟩
    have hchP : ∀ (l : Nat) (v : YamlVal) (b c k : Bool) (s : RState),
        (RInv cfg s ∧ (∀ x ∈ st1.used, x ∈ s.used)) →
        (GoodVal O v ∧ ∀ cc, v = YamlVal.vref cc →
          cc ∈ cfg.duplicates ∨ (cc ∈ O ∧ posIn O i < posIn O cc)) →
        child l v b c k s ≠ .error .outOfFuel := by
      intro l v b c k s hPs hGc
      have hstep2 := hstep s v hPs.1 hPs.2 hGc
      exact hch l v b c k s hPs.1 hGc.1 (by omega)
    have hGtriv : GoodVal O YamlVal.vother ∧ ∀ cc, YamlVal.vother = YamlVal.vref cc →
        cc ∈ cfg.duplicates ∨ (cc ∈ O ∧ posIn O i < posIn O cc) :=
      ⟨trivial, fun cc hcc => YamlVal.noConfusion hcc⟩
    have hGkey : ∀ kk : JStr, GoodVal O (YamlVal.vstr kk) ∧
        ∀ cc, YamlVal.vstr kk = YamlVal.vref cc →
          cc ∈ cfg.duplicates ∨ (cc ∈ O ∧ posIn O i < posIn O cc) :=
      fun kk => ⟨trivial, fun cc hcc => YamlVal.noConfusion hcc⟩
    have hGchild : ∀ v ∈ childVals h i,
        GoodVal O v ∧ ∀ cc, v = YamlVal.vref cc →
          cc ∈ cfg.duplicates ∨ (cc ∈ O ∧ posIn O i < posIn O cc) := by
      intro v hv
      cases v with
      | vref cc =>
        refine ⟨?_, fun dd hdd => ?_⟩
        · rcases hedge i hiO cc hv with hh | hh
          · exact hsub cc hh
          · exact hh.1
        · cases hdd
          exact hedge i hiO cc hv
      | vstr sv => exact hGkey sv
      | vother => exact hGtriv
    cases hobj : Heap.obj h i with
    | map fields =>
      have hcv : childVals h i = fields.map Prod.snd := by rw [childVals, hobj]
      rw [hobj] at habs
      dsimp only at habs
      split at habs
      · split at habs
        · rename_i e heq
          cases habs
          exact stringifyBlockMapping_total cfg child _ _ hpresP hchP fields none level _
            st1 hP1
            (fun p hp => hGchild p.2 (by rw [hcv]; exact List.mem_map_of_mem Prod.snd hp))
            hGtriv hGkey heq
        · exact Except.noConfusion habs
      · split at habs
        · rename_i e heq
          cases habs
          exact stringifyFlowMapping_total child _ _ hpresP hchP cfg.condenseFlow fields
            level st1 hP1
            (fun p hp => ⟨hGkey p.1,
              hGchild p.2 (by rw [hcv]; exact List.mem_map_of_mem Prod.snd hp)⟩) heq
        · exact Except.noConfusion habs
    | arr elems =>
      have hcv : childVals h i = elems := by rw [childVals, hobj]
      rw [hobj] at habs
      dsimp only at habs
      split at habs
      · split at habs
        · rename_i e heq
          cases habs
          exact stringifyBlockSequence_total child _ _ hpresP hchP cfg.indent elems _ _
            st1 hP1 (fun v hv => hGchild v (by rw [hcv]; exact hv)) heq
        · exact Except.noConfusion habs
      · split at habs
        · rename_i e heq
          cases habs
          exact stringifyFlowSequence_total child _ _ hpresP hchP cfg.condenseFlow elems _
            st1 hP1 (fun v hv => hGchild v (by rw [hcv]; exact hv)) heq
        · exact Except.noConfusion habs

theorem setAdd_nodup {s : List Nat} (hnd : s.Nodup) (i : Nat) : (setAdd s i).Nodup := by
  rw [setAdd]
  split
  · exact hnd
  · rename_i hni
    exact List.Nodup.append hnd (List.nodup_singleton i) (List.disjoint_singleton.mpr hni)

theorem inspectChildren_extra (h : Heap)
    (go : YamlVal → ScanState → Option ScanState)
    (hgo : ∀ v st out, go v st = some out →
      ((∀ x ∈ st.objects, x < h.objs.length) →
        refBoundedB h.objs.length v = true → ∀ x ∈ out.objects, x < h.objs.length) ∧
      (st.duplicateObjects.Nodup → out.duplicateObjects.Nodup) ∧
      ScanExt st out) :
    ∀ (vs : List YamlVal) (st out : ScanState),
      inspectChildren go vs st = some out →
      (∀ v ∈ vs, refBoundedB h.objs.length v = true) →
      ((∀ x ∈ st.objects, x < h.objs.length) → ∀ x ∈ out.objects, x < h.objs.length) ∧
      (st.duplicateObjects.Nodup → out.duplicateObjects.Nodup) := by
  intro vs
  induction vs with
  | nil =>
    intro st out hok _
    rw [inspectChildren] at hok
    cases hok
    exact ⟨fun hb => hb, fun hnd => hnd⟩
  | cons v rest ih =>
    intro st out hok hall
    rw [inspectChildren] at hok
    split at hok
    · exact Option.noConfusion hok
    · rename_i st1 heq
      obtain ⟨hb1, hnd1, _⟩ := hgo v st st1 heq
      obtain ⟨hb2, hnd2⟩ := ih st1 out hok (fun u hu => hall u (List.mem_cons_of_mem v hu))
      exact ⟨fun hb => hb2 (hb1 hb (hall v (List.mem_cons_self v rest))),
        fun hnd => hnd2 (hnd1 hnd)⟩

theorem inspectNode_extra (h : Heap) (hwf : WfHeap h) :
    ∀ (fuel : Nat) (v : YamlVal) (st out : ScanState),
      inspectNode h fuel v st = some out →
      ((∀ x ∈ st.objects, x < h.objs.length) →
        refBoundedB h.objs.length v = true → ∀ x ∈ out.objects, x < h.objs.length) ∧
      (st.duplicateObjects.Nodup → out.duplicateObjects.Nodup) ∧
      ScanExt st out := by
  intro fuel
  induction fuel with
  | zero =>
    intro v st out hok
    exact Option.noConfusion hok
  | succ fuel ih =>
    intro v st out hok
    cases v with
    | vref i =>
      by_cases hmem : i ∈ st.objects
      · rw [inspectNode_no_redescend h fuel i st hmem] at hok
        cases hok
        exact ⟨fun hb _ => hb, fun hnd => setAdd_nodup hnd i,
          ⟨⟨[], by simp⟩, fun x hx => setAdd_mem_of_mem hx i⟩⟩
      · have hstep : inspectNode h (fuel + 1) (.vref i) st =
            inspectChildren (fun v s => inspectNode h fuel v s) (childVals h i)
              { st with objects := st.objects ++ [i] } := by
          rw [inspectNode]
          rw [if_neg hmem]
        rw [hstep] at hok
        have hextC := (inspectChildren_post h _
          (fun v st out hg => inspectNode_post h fuel v st out hg)
          (childVals h i) _ out hok).1
        refine ⟨?_, ?_, ?_⟩
        · intro hb hgood
          have hi : i < h.objs.length := of_decide_eq_true hgood
          exact (inspectChildren_extra h _ (fun v st out hg => ih v st out hg)
            (childVals h i) _ out hok (hwf i hi)).1
            (fun x hx => by
              rcases List.mem_append.mp hx with hh | hh
              · exact hb x hh
              · rw [List.mem_singleton.mp hh]
                exact hi)
        · intro hnd
          by_cases hi : i < h.objs.length
          · exact (inspectChildren_extra h _ (fun v st out hg => ih v st out hg)
              (childVals h i) _ out hok (hwf i hi)).2 hnd
          · rw [childVals_oor h i (le_of_not_lt hi)] at hok
            rw [inspectChildren] at hok
            cases hok
            exact hnd
        · obtain ⟨⟨tl, hobj⟩, hdup⟩ := hextC
          refine ⟨⟨i :: tl, ?_⟩, hdup⟩
          rw [hobj, List.append_assoc]
          rfl
    | vstr s =>
      have hstep : inspectNode h (fuel + 1) (.vstr s) st = some st := rfl
      rw [hstep] at hok
      cases hok
      exact ⟨fun hb _ => hb, fun hnd => hnd, scanExt_refl st⟩
    | vother =>
      have hstep : inspectNode h (fuel + 1) .vother st = some st := rfl
      rw [hstep] at hok
      cases hok
      exact ⟨fun hb _ => hb, fun hnd => hnd, scanExt_refl st⟩

/-- With the scan's guarantees in hand, the serializer never exhausts a
fuel budget above its potential. -/
theorem stringifyNode_total (cfg : DumperState) (h : Heap) (O : List Nat)
    (hedge : ∀ w, w ∈ O → ∀ c, YamlVal.vref c ∈ childVals h w →
      c ∈ cfg.duplicates ∨ (c ∈ O ∧ posIn O w < posIn O c))
    (hsub : ∀ x ∈ cfg.duplicates, x ∈ O) :
    ∀ (fuel level : Nat) (v : YamlVal) (b c k : Bool) (st : RState),
      RInv cfg st → GoodVal O v → Phi cfg O st v < fuel →
      stringifyNode cfg h fuel level v b c k st ≠ .error .outOfFuel := by
  intro fuel
  induction fuel with
  | zero =>
    intro level v b c k st _ _ hPhi
    exact absurd hPhi (Nat.not_lt_zero _)
  | succ fuel ih =>
    intro level v b c k st hinv hGood hPhi habs
    cases v with
    | vstr s =>
      rw [stringifyNode_vstr] at habs
      split at habs
      · rename_i e heq
        cases habs
        exact stringifyScalar_not_fuel cfg s level k heq
      · exact Except.noConfusion habs
    | vother =>
      rw [stringifyNode_vother] at habs
      split at habs
      · exact Except.noConfusion habs
      · simp at habs
    | vref i =>
      rw [stringifyNode_vref] at habs
      exact stringifyRef_total cfg h O hedge hsub fuel _
        (fun l v b c k s r s' hok hs =>
          have p := stringifyNode_pres cfg h fuel l v b c k s r s' hok hs
          ⟨p.1, fun x hx => p.2.2 x hx⟩)
        (fun l v b c k s hs hg hp => ih l v b c k s hs hg hp)
        level i b c st hinv hGood hPhi habs

/-- Fuel that provably suffices to dump any well-formed heap of this
size. -/
def dumpFuel (h : Heap) : Nat :=
  (h.objs.length + 1) * (2 * h.objs.length + 2) + 1

/-- Under the default configuration, dumping any in-range reference of a
well-formed heap — cyclic or not — never exhausts `dumpFuel`: the
recursion terminates. -/
theorem stringify_total (h : Heap) (hwf : WfHeap h) (rt : Nat)
    (hrt : rt < h.objs.length) :
    (DumperState.ofOptions {}).stringify h (dumpFuel h) (.vref rt) ≠
      .error .outOfFuel := by
  intro habs
  rw [DumperState.stringify] at habs
  have huse : (DumperState.ofOptions {}).useAnchors = true := rfl
  rw [if_pos huse] at habs
  have hgood : refBoundedB h.objs.length (.vref rt) = true := decide_eq_true hrt
  have hflt : h.objs.length < dumpFuel h := by
    have hx : h.objs.length + 1 ≤ (h.objs.length + 1) * (2 * h.objs.length + 2) :=
      Nat.le_mul_of_pos_right (h.objs.length + 1) (by omega)
    calc h.objs.length < h.objs.length + 1 := Nat.lt_succ_self _
      _ ≤ (h.objs.length + 1) * (2 * h.objs.length + 2) := hx
      _ ≤ dumpFuel h := Nat.le_succ _
  cases hscan : getDuplicateReferences h (dumpFuel h) (.vref rt) with
  | none =>
    exact getDuplicateReferences_total h hwf (dumpFuel h) (.vref rt) hgood hflt hscan
  | some dups =>
    rw [hscan] at habs
    dsimp only at habs
    rw [getDuplicateReferences] at hscan
    split at hscan
    · exact Option.noConfusion hscan
    · rename_i sOut hin
      have hdups : dups = sOut.duplicateObjects := by
        cases hscan
        rfl
      obtain ⟨hext, hndO, hdo, hS4, hS5⟩ := inspectNode_post h (dumpFuel h) (.vref rt)
        ⟨[], []⟩ sOut hin
      obtain ⟨hbnd, hndD, _⟩ := inspectNode_extra h hwf (dumpFuel h) (.vref rt)
        ⟨[], []⟩ sOut hin
      have hOb : ∀ x ∈ sOut.objects, x < h.objs.length :=
        hbnd (fun x hx => absurd hx (List.not_mem_nil x)) hgood
      have hOnd : sOut.objects.Nodup := hndO List.nodup_nil
      have hDnd : sOut.duplicateObjects.Nodup := hndD List.nodup_nil
      have hsubD : ∀ x ∈ sOut.duplicateObjects, x ∈ sOut.objects :=
        hdo (fun x hx => absurd hx (List.not_mem_nil x))
      have hOlen : sOut.objects.length ≤ h.objs.length := by
        have hr := nodupSubsetLength sOut.objects (List.range h.objs.length) hOnd
          (fun x hx => List.mem_range.mpr (hOb x hx))
        rw [List.length_range] at hr
        exact hr
      have hDlen : sOut.duplicateObjects.length ≤ sOut.objects.length :=
        nodupSubsetLength _ _ hDnd hsubD
      have hrtO : rt ∈ sOut.objects := ((hS5 rt rfl).1).1
      split at habs
      · rename_i e heq
        cases habs
        refine stringifyNode_total { DumperState.ofOptions {} with duplicates := dups } h
          sOut.objects ?_ ?_ (dumpFuel h) 0 (.vref rt) true true false ⟨[], []⟩
          ⟨traceInv_init, fun j hj => absurd hj (List.not_mem_nil j), List.nodup_nil⟩
          hrtO ?_ heq
        · intro w hw c hc
          have := hS4 w c hw (List.not_mem_nil w) hc
          rcases this with hh | hh
          · exact Or.inl (hdups ▸ hh)
          · exact Or.inr hh
        · intro x hx
          exact hsubD x (hdups ▸ hx)
        · have hPhiRoot : Phi { DumperState.ofOptions {} with duplicates := dups }
              sOut.objects ⟨[], []⟩ (.vref rt) ≤
              sOut.duplicateObjects.length * chainBudget sOut.objects +
                2 * sOut.objects.length := by
            rw [Phi_ref]
            have htok : dupTokens { DumperState.ofOptions {} with duplicates := dups }
                ⟨[], []⟩ = dups.length := by
              rw [dupTokens]
              rfl
            split
            · split
              · exact Nat.zero_le _
              · rw [htok, hdups]
                exact Nat.le_add_right _ _
            · rw [htok, hdups]
              exact Nat.add_le_add_left (Nat.mul_le_mul_left 2 (Nat.sub_le _ _)) _
          have hBle : chainBudget sOut.objects ≤ 2 * h.objs.length + 2 := by
            rw [chainBudget]
            omega
          have hfin : sOut.duplicateObjects.length * chainBudget sOut.objects +
              2 * sOut.objects.length < dumpFuel h := by
            have h1 : sOut.duplicateObjects.length * chainBudget sOut.objects ≤
                h.objs.length * (2 * h.objs.length + 2) :=
              Nat.mul_le_mul (le_trans hDlen hOlen) hBle
            have h2 : 2 * sOut.objects.length ≤ 2 * h.objs.length + 2 := by omega
            calc sOut.duplicateObjects.length * chainBudget sOut.objects +
                2 * sOut.objects.length
                ≤ h.objs.length * (2 * h.objs.length + 2) + (2 * h.objs.length + 2) :=
                  Nat.add_le_add h1 h2
              _ = (h.objs.length + 1) * (2 * h.objs.length + 2) := (Nat.succ_mul _ _).symm
              _ < dumpFuel h := Nat.lt_succ_self _
          omega
      · exact Except.noConfusion habs
      · exact Except.noConfusion habs

/-- The one-object self-referential heap: `a = [a]`. -/
def hLoopC3 : Heap := ⟨[.arr [.vref 0]]⟩

/-- A child serializer that skips everything (for exercising the alias
branch, which never invokes the child). -/
def childC3 : Child := fun _ _ _ _ _ s => .ok (none, s)

/-- C3: a node seen a second time by the pre-scan is added to the
duplicate set with no re-descent (conjunct 1); on any scanned graph, a
node that contains itself and was visited ends up in the duplicate set
(conjunct 2); under the default configuration, dumping any in-range root
of a well-formed heap — cycles included — completes within the explicit
`dumpFuel` recursion budget, i.e. the recursion terminates (conjunct 3);
and the render pass answers a later occurrence of an already-anchored
registry node with a `*ref` alias and no recursion into the child
serializer (conjunct 4). -/
theorem claim_C3 (h1 : Heap) (fuel1 i1 : Nat) (st1 : ScanState) (hmem1 : i1 ∈ st1.objects)
    (h2 : Heap) (fuel2 rt2 i2 : Nat) (out2 : ScanState)
    (hscan2 : inspectNode h2 fuel2 (.vref rt2) ⟨[], []⟩ = some out2)
    (hself2 : YamlVal.vref i2 ∈ childVals h2 i2) (hvis2 : i2 ∈ out2.objects)
    (h3 : Heap) (hwf3 : WfHeap h3) (rt3 : Nat) (hrt3 : rt3 < h3.objs.length)
    (cfg4 : DumperState) (h4 : Heap) (child4 : Child) (level4 i4 : Nat) (b4 c4 : Bool)
    (st4 : RState) (hdup4 : jsIndexOf cfg4.duplicates i4 ≠ -1) (hused4 : i4 ∈ st4.used) :
    inspectNode h1 (fuel1 + 1) (.vref i1) st1 =
      some { st1 with duplicateObjects := setAdd st1.duplicateObjects i1 } ∧
    i2 ∈ out2.duplicateObjects ∧
    (DumperState.ofOptions {}).stringify h3 (dumpFuel h3) (.vref rt3) ≠
      .error .outOfFuel ∧
    stringifyRef cfg4 h4 child4 level4 i4 b4 c4 st4 =
      .ok (some (js "*ref_" ++ natToDec (jsIndexOf cfg4.duplicates i4).toNat),
        pushEvent st4 (.alias i4)) := by
  refine ⟨inspectNode_no_redescend h1 fuel1 i1 st1 hmem1, ?_,
    stringify_total h3 hwf3 rt3 hrt3,
    stringifyRef_alias cfg4 h4 child4 level4 i4 b4 c4 st4 hdup4 hused4⟩
  obtain ⟨_, _, _, hS4, _⟩ := inspectNode_post h2 fuel2 (.vref rt2) ⟨[], []⟩ out2 hscan2
  rcases hS4 i2 i2 hvis2 (List.not_mem_nil i2) hself2 with hh | ⟨_, hlt⟩
  · exact hh
  · exact absurd hlt (lt_irrefl _)

/-- Witness for C3 on the self-loop `a = [a]`: the revisit marks node 0
duplicate without re-descent, the scan records it in the duplicate set,
the default dump finishes inside its fuel budget, and an anchored later
occurrence yields `*ref_0`. -/
theorem claim_C3_witness :
    inspectNode hLoopC3 3 (.vref 0) ⟨[0], []⟩ = some ⟨[0], setAdd [] 0⟩ ∧
    (0 : Nat) ∈ ([0] : List Nat) ∧
    (DumperState.ofOptions {}).stringify hLoopC3 (dumpFuel hLoopC3) (.vref 0) ≠
      .error .outOfFuel ∧
    stringifyRef { DumperState.ofOptions {} with duplicates := [0] } hLoopC3 childC3 0 0
        true true ⟨[0], []⟩ =
      .ok (some (js "*ref_" ++ natToDec (jsIndexOf [0] 0).toNat),
        pushEvent ⟨[0], []⟩ (.alias 0)) :=
  claim_C3 hLoopC3 2 0 ⟨[0], []⟩ (by decide) hLoopC3 5 0 0 ⟨[0], [0]⟩ (by decide)
    (by decide) (by decide) hLoopC3 (by decide) 0 (by decide)
    { DumperState.ofOptions {} with duplicates := [0] } hLoopC3 childC3 0 0 true true
    ⟨[0], []⟩ (by decide) (by decide)
